import Mathlib

/-!
Verification development for the workflow execution engine of the AGENT-E
repository (`src/agent/workflow.py`).  The Python classes `WorkflowStatus`,
`WorkflowStep`, `WorkflowResult` and `Workflow` (with its methods `validate`,
`_get_execution_order` and `run`) are shallowly embedded below.  Python
dictionaries are modelled as insertion-ordered association lists, Python
exceptions as `Except` values, and mutation of the workflow object as explicit
state passing.  The external action invocation (`execute_step`, overridable in
subclasses and ultimately a remote call) is a parameter of `run`; a ghost trace
of invocations and of status assignments is threaded through `run` so that
claims about "step X is never invoked" and about the status state machine can
be stated.
-/

namespace AgentE

/-- A single quote character, used to build the Python error message strings. -/
def sq : String := String.singleton (Char.ofNat 39)

/-- Model of Python runtime values stored in contexts and step results. -/
inductive Val where
  | vnone : Val
  | vstr (s : String) : Val
  | vnat (n : Nat) : Val
  | vlist (elems : List Val) : Val
  | vdict (entries : List (String × Val)) : Val

/-- Python type name of a value, as it appears in an AttributeError message. -/
def pyTypeName : Val → String
  | .vnone => "NoneType"
  | .vstr _ => "str"
  | .vnat _ => "int"
  | .vlist _ => "list"
  | .vdict _ => "dict"

mutual

/-- Python `repr` of a value (dictionaries and lists render their elements). -/
def pyRepr : Val → String
  | .vnone => "None"
  | .vstr s => sq ++ s ++ sq
  | .vnat n => toString n
  | .vlist es => "[" ++ pyReprList es ++ "]"
  | .vdict es => "\x7b" ++ pyReprDict es ++ "\x7d"

/-- Comma-separated reprs of the elements of a list value. -/
def pyReprList : List Val → String
  | [] => ""
  | [v] => pyRepr v
  | v :: vs => pyRepr v ++ ", " ++ pyReprList vs

/-- Comma-separated `key: value` reprs of the entries of a dict value. -/
def pyReprDict : List (String × Val) → String
  | [] => ""
  | [(k, v)] => sq ++ k ++ sq ++ ": " ++ pyRepr v
  | (k, v) :: es => sq ++ k ++ sq ++ ": " ++ pyRepr v ++ ", " ++ pyReprDict es

end

/-- Python `str` of a value, as used when formatting f-strings. -/
def pyStrF : Val → String
  | .vstr s => s
  | v => pyRepr v

/-- Python dictionary assignment `d[k] = v`: overwrite the entry in place if
the key is present, otherwise append it. -/
def dictSet {α : Type} (d : List (String × α)) (k : String) (v : α) : List (String × α) :=
  if (d.lookup k).isSome then
    d.map (fun p => if p.1 = k then (k, v) else p)
  else
    d ++ [(k, v)]

/-- `WorkflowStatus` enumeration from the source. -/
inductive WorkflowStatus where
  | pending
  | running
  | paused
  | completed
  | failed
  | cancelled
deriving DecidableEq, Repr

/-- `WorkflowStep` dataclass from the source.  The `timeout` duration is
abstracted to a natural number (it is declared but never enforced). -/
structure WorkflowStep where
  name : String
  description : String
  action : String
  parameters : List (String × Val) := []
  depends_on : List String := []
  retries : Nat := 3
  timeout : Option Nat := none

/-- The `self.steps` dictionary: step name to step, insertion ordered. -/
abbrev Steps := List (String × WorkflowStep)

/-- The keys of the steps dictionary, in insertion order. -/
def keys (steps : Steps) : List String := steps.map Prod.fst

/-- `self.steps[name].depends_on`, with `[]` for an absent key. -/
def depsOf (steps : Steps) (name : String) : List String :=
  match steps.lookup name with
  | some s => s.depends_on
  | none => []

/-- The `ValueError`s raised by `Workflow.validate`. -/
inductive ValidationError where
  | depNotFound (dep : String)
  | circular (stepName : String)
deriving DecidableEq, Repr

/-- Message of a validation `ValueError`, as built by the source f-strings. -/
def valErrStr : ValidationError → String
  | .depNotFound d => "Dependency " ++ sq ++ d ++ sq ++ " not found in workflow"
  | .circular s => "Circular dependency detected in workflow at step: " ++ s

/-- The mutable `visited` and `path` sets of the depth-first traversal in
`Workflow.validate`, threaded as explicit state.  `path` keeps the insertion
order of the Python recursion (most recent first). -/
structure VisitState where
  visited : List String
  path : List String
deriving DecidableEq, Repr

/-- The `for dep in step.depends_on` loop inside the `visit` closure of
`Workflow.validate`: check the dependency exists, recurse through `visitFn`
(the recursive visit at the remaining depth), and propagate a `False` result
immediately. -/
def visitDeps (steps : Steps)
    (visitFn : String → VisitState → Except ValidationError (Bool × VisitState)) :
    List String → VisitState → Except ValidationError (Bool × VisitState)
  | [], st => .ok (true, st)
  | d :: ds, st =>
    if (steps.lookup d).isSome then
      match visitFn d st with
      | .error e => .error e
      | .ok (false, st1) => .ok (false, st1)
      | .ok (true, st1) => visitDeps steps visitFn ds st1
    else .error (.depNotFound d)

/-- The inner `visit` closure of `Workflow.validate`.  Fuel bounds the
recursion depth; `validate` supplies enough fuel for the depth to never be
reached (the Python recursion depth is bounded by the number of steps). -/
def visit (steps : Steps) : Nat → String → VisitState → Except ValidationError (Bool × VisitState)
  | 0, _, st => .ok (false, st)
  | Nat.succ fuel, n, st =>
    if n ∈ st.path then .ok (false, st)
    else if n ∈ st.visited then .ok (true, st)
    else
      match visitDeps steps (fun d st2 => visit steps fuel d st2) (depsOf steps n)
          { st with path := n :: st.path } with
      | .error e => .error e
      | .ok (false, st1) => .ok (false, st1)
      | .ok (true, st1) =>
          .ok (true, { st1 with path := st1.path.erase n, visited := n :: st1.visited })

/-- The `for step_name in self.steps` loop of `Workflow.validate`: raise a
circular-dependency `ValueError` at the first step whose visit returns false. -/
def validateLoop (steps : Steps) : List String → VisitState → Except ValidationError Bool
  | [], _ => .ok true
  | n :: ns, st =>
    match visit steps (steps.length + 1) n st with
    | .error e => .error e
    | .ok (false, _) => .error (.circular n)
    | .ok (true, st1) => validateLoop steps ns st1

/-- `Workflow.validate`: returns true, or raises a `ValueError` (modelled as
`Except.error`) for an unknown dependency or a circular dependency. -/
def validate (steps : Steps) : Except ValidationError Bool :=
  validateLoop steps (keys steps) ⟨[], []⟩

/-- Errors raised by `Workflow._get_execution_order`: a `KeyError` from
`graph[dep]` when a dependency is not a step, or the circular-dependency
`ValueError` when the produced order misses some steps. -/
inductive OrderError where
  | keyError (dep : String)
  | circular (remaining : List String)
deriving DecidableEq, Repr

/-- Message of an execution-order error as `str(e)` renders it (a `KeyError`
prints the repr of the key; the remaining set prints with braces). -/
def orderErrStr : OrderError → String
  | .keyError d => sq ++ d ++ sq
  | .circular rem => "Circular dependency detected. Remaining steps: " ++
      "\x7b" ++ String.intercalate ", " (rem.map fun r => sq ++ r ++ sq) ++ "\x7d"

/-- The `for dep in step.depends_on` part of the graph-building loop in
`_get_execution_order`: `graph[dep].append(step_name)` (a `KeyError` if `dep`
is unknown) and `in_degree[step_name] += 1`. -/
def buildDeps (steps : Steps) (name : String) :
    List String → (String → List String) → (String → Int) →
    Except OrderError ((String → List String) × (String → Int))
  | [], g, ind => .ok (g, ind)
  | dep :: ds, g, ind =>
    if (steps.lookup dep).isSome then
      buildDeps steps name ds
        (fun x => if x = dep then g dep ++ [name] else g x)
        (fun x => if x = name then ind name + 1 else ind x)
    else .error (.keyError dep)

/-- The `for step_name, step in self.steps.items()` graph-building loop. -/
def buildLoop (steps : Steps) :
    List (String × WorkflowStep) → (String → List String) → (String → Int) →
    Except OrderError ((String → List String) × (String → Int))
  | [], g, ind => .ok (g, ind)
  | (name, step) :: rest, g, ind =>
    match buildDeps steps name step.depends_on g ind with
    | .error e => .error e
    | .ok (g1, ind1) => buildLoop steps rest g1 ind1

/-- The `for neighbor in graph[step_name]` loop of Kahn's algorithm: decrement
each neighbour's in-degree and enqueue it when the in-degree reaches zero. -/
def processNeighbors : List String → List String → (String → Int) →
    (List String × (String → Int))
  | [], queue, ind => (queue, ind)
  | m :: ms, queue, ind =>
    let ind1 : String → Int := fun x => if x = m then ind m - 1 else ind x
    let queue1 := if ind1 m = 0 then queue ++ [m] else queue
    processNeighbors ms queue1 ind1

/-- The `while queue` loop of Kahn's algorithm.  Fuel bounds the number of
iterations; `_get_execution_order` supplies one more than the number of steps,
which suffices because no step is ever enqueued twice. -/
def kahnLoop (g : String → List String) :
    Nat → List String → List String → (String → Int) → List String
  | 0, _, order, _ => order
  | Nat.succ _, [], order, _ => order
  | Nat.succ fuel, q :: qs, order, ind =>
    let (qs1, ind1) := processNeighbors (g q) qs ind
    kahnLoop g fuel qs1 (order ++ [q]) ind1

/-- `Workflow._get_execution_order`: topological sort by Kahn's algorithm. -/
def getExecutionOrder (steps : Steps) : Except OrderError (List String) :=
  match buildLoop steps steps (fun _ => []) (fun _ => 0) with
  | .error e => .error e
  | .ok (g, ind) =>
    let queue := (keys steps).filter (fun k => ind k == 0)
    let order := kahnLoop g (steps.length + 1) queue [] ind
    if order.length ≠ steps.length then
      .error (.circular ((keys steps).filter (fun k => !(order.contains k))))
    else .ok order

/-- The `Workflow` object state: its name, its steps dictionary, its mutable
status, and its `results` attribute (assigned in `__init__`, line 62). -/
structure Workflow where
  name : String
  steps : Steps
  status : WorkflowStatus
  results : List (String × Val)

/-- `Workflow.__init__`: build the steps dictionary keyed by step name, start
in `pending` status with empty results. -/
def Workflow.make (name : String) (steps : List WorkflowStep) : Workflow :=
  ⟨name, steps.foldl (fun d s => dictSet d s.name s) [], .pending, []⟩

/-- `WorkflowResult` dataclass.  The wall-clock `execution_time` float is
abstracted to a constant. -/
structure WorkflowResult where
  status : WorkflowStatus
  output : Option (List (String × Val)) := none
  error : Option String := none
  execution_time : Nat := 0
  steps_completed : Nat := 0
  total_steps : Nat := 0

/-- A context dictionary passed to a step action. -/
abbrev Ctx := List (String × Val)

/-- Outcome of one invocation of the action collaborator (`execute_step`):
either the awaited call raised an exception, or it returned a value. -/
inductive ActionResult where
  | raises (msg : String)
  | returns (v : Val)

/-- Ghost record of one action invocation: the step name, the context that was
passed, and the outcome the action produced. -/
structure CallRec where
  name : String
  ctx : Ctx
  outcome : ActionResult

/-- The `step_result.get("status") != "success"` test of run line 148, negated:
Python `==` between the fetched value and the string literal is true exactly
when the value is the string `success`. -/
def isSuccessVal : Option Val → Bool
  | some (.vstr s) => s == "success"
  | _ => false

/-- Replay of the `results[step_name] = step_result` assignment (run line 146):
an invocation that returned a value records it, a raising one records nothing. -/
def applyOutcome (results : List (String × Val)) (cr : CallRec) : List (String × Val) :=
  match cr.outcome with
  | .returns v => dictSet results cr.name v
  | .raises _ => results

/-- Outcome of the `for i, step_name in enumerate(execution_order, 1)` loop of
`Workflow.run`: normal completion, an early `return` of a failed result (with
its error message and `steps_completed = i-1`), or an exception propagating to
the outer handler.  Each constructor carries the invocation trace. -/
inductive LoopOut where
  | completed (results : List (String × Val)) (calls : List CallRec)
  | failedRes (error : String) (stepsCompleted : Nat) (calls : List CallRec)
  | raised (msg : String) (calls : List CallRec)

/-- Prepend an invocation record to the trace of a loop outcome. -/
def consCall (cr : CallRec) : LoopOut → LoopOut
  | .completed results calls => .completed results (cr :: calls)
  | .failedRes e sc calls => .failedRes e sc (cr :: calls)
  | .raised m calls => .raised m (cr :: calls)

/-- Message of the `AttributeError` raised by `step_result.get("status")` when
the returned value is not a dictionary. -/
def attrErr (v : Val) : String :=
  sq ++ pyTypeName v ++ sq ++ " object has no attribute " ++ sq ++ "get" ++ sq

/-- `f"Error executing step " + name + ": " + msg` (run line 162). -/
def errExec (name msg : String) : String :=
  "Error executing step " ++ sq ++ name ++ sq ++ ": " ++ msg

/-- `f"Step " + name + " failed: " + err` (run line 150). -/
def errStepFailed (name : String) (ev : Val) : String :=
  "Step " ++ sq ++ name ++ sq ++ " failed: " ++ pyStrF ev

/-- `f"Dependencies not satisfied for step " + name + ": " + missing`
(run line 136). -/
def errUnmet (name : String) (missing : List String) : String :=
  "Dependencies not satisfied for step " ++ sq ++ name ++ sq ++ ": " ++
    pyRepr (.vlist (missing.map .vstr))

/-- The step-execution loop of `Workflow.run` (lines 129-171), parameterised by
the action collaborator.  `i` is the 1-based enumeration counter. -/
def runSteps (action : WorkflowStep → Ctx → ActionResult) (steps : Steps) (context : Ctx) :
    List String → Nat → List (String × Val) → LoopOut
  | [], _, results => .completed results []
  | name :: rest, i, results =>
    match steps.lookup name with
    | none => .raised (sq ++ name ++ sq) []
    | some step =>
      if step.depends_on.all (fun d => (results.lookup d).isSome) then
        let step_context := step.depends_on.foldl
          (fun c d => dictSet c d ((results.lookup d).getD .vnone)) context
        let out := action step step_context
        let cr : CallRec := ⟨name, step_context, out⟩
        match out with
        | .raises msg => .failedRes (errExec name msg) (i - 1) [cr]
        | .returns v =>
          let results1 := dictSet results name v
          match v with
          | .vdict es =>
            if isSuccessVal (es.lookup "status") then
              consCall cr (runSteps action steps context rest (i + 1) results1)
            else
              .failedRes (errStepFailed name ((es.lookup "error").getD (.vstr "Unknown error")))
                (i - 1) [cr]
          | _ => .failedRes (errExec name (attrErr v)) (i - 1) [cr]
      else
        .raised (errUnmet name (step.depends_on.filter (fun d => (results.lookup d).isNone))) []

/-- Everything `Workflow.run` produces: the returned `WorkflowResult`, the
workflow object state after the call, the ghost invocation trace, and the ghost
history of assignments to `self.status` during the call. -/
structure RunOutput where
  result : WorkflowResult
  wf : Workflow
  calls : List CallRec
  statusHist : List WorkflowStatus

/-- `Workflow.run`: set status to running, validate, compute the execution
order, execute steps in order, and convert every raised error into a returned
failed `WorkflowResult` via the outer `except` handler (lines 183-194). -/
def Workflow.run (action : WorkflowStep → Ctx → ActionResult) (w : Workflow)
    (initial_context : Option Ctx) : RunOutput :=
  let context := initial_context.getD []
  match validate w.steps with
  | .error e =>
    ⟨⟨.failed, none, some ("Workflow failed: " ++ valErrStr e), 0, 0, w.steps.length⟩,
      { w with status := .failed }, [], [.running, .failed]⟩
  | .ok _ =>
    match getExecutionOrder w.steps with
    | .error e =>
      ⟨⟨.failed, none, some ("Workflow failed: " ++ orderErrStr e), 0, 0, w.steps.length⟩,
        { w with status := .failed }, [], [.running, .failed]⟩
    | .ok order =>
      match runSteps action w.steps context order 1 [] with
      | .completed results calls =>
        ⟨⟨.completed, some results, none, 0, order.length, order.length⟩,
          { w with status := .completed }, calls, [.running, .completed]⟩
      | .failedRes msg sc calls =>
        ⟨⟨.failed, none, some msg, 0, sc, order.length⟩,
          { w with status := .failed }, calls, [.running, .failed]⟩
      | .raised msg calls =>
        ⟨⟨.failed, none, some ("Workflow failed: " ++ msg), 0, 0, w.steps.length⟩,
          { w with status := .failed }, calls, [.running, .failed]⟩

/-- `Workflow._get_execution_order` as a method on the workflow object, with
mutation modelled by state threading: the second component is the workflow
state after the call (the method only builds local dictionaries). -/
def Workflow.getExecutionOrderM (w : Workflow) : Except OrderError (List String) × Workflow :=
  (getExecutionOrder w.steps, w)

/-! ### The dependency relation and cycles -/

/-- `Reaches steps a b`: there is a nonempty chain of `depends_on` edges from
`a` to `b` (each next node is a declared dependency of the previous one). -/
inductive Reaches (steps : Steps) : String → String → Prop
  | single {a b : String} : b ∈ depsOf steps a → Reaches steps a b
  | tail {a b c : String} : Reaches steps a b → c ∈ depsOf steps b → Reaches steps a c

/-- A cycle is reachable from `n` (possibly through `n` itself). -/
def CycleFrom (steps : Steps) (n : String) : Prop :=
  ∃ c, (c = n ∨ Reaches steps n c) ∧ Reaches steps c c

/-- The dependency graph of the step mapping has no cycle. -/
def Acyclic (steps : Steps) : Prop := ∀ n, ¬ Reaches steps n n

/-- Every declared dependency of every step is itself a step. -/
def DepsKnown (steps : Steps) : Prop :=
  ∀ n ∈ keys steps, ∀ d ∈ depsOf steps n, d ∈ keys steps

theorem Reaches.trans2 {steps : Steps} {a b c : String}
    (h1 : Reaches steps a b) (h2 : Reaches steps b c) : Reaches steps a c := by
  induction h2 with
  | single h => exact h1.tail h
  | tail _ h ih => exact ih.tail h

/-- First-step decomposition of a reachability chain. -/
theorem Reaches.head_decomp {steps : Steps} {a b : String} (h : Reaches steps a b) :
    ∃ d, d ∈ depsOf steps a ∧ (d = b ∨ Reaches steps d b) := by
  induction h with
  | single h => exact ⟨_, h, Or.inl rfl⟩
  | tail _ h ih =>
    obtain ⟨d, hd, hdb⟩ := ih
    cases hdb with
    | inl he => exact ⟨d, hd, Or.inr (Reaches.single (he ▸ h))⟩
    | inr hr => exact ⟨d, hd, Or.inr (hr.tail h)⟩

theorem lookup_isSome_iff {steps : Steps} {n : String} :
    (steps.lookup n).isSome = true ↔ n ∈ keys steps := by
  induction steps with
  | nil => simp [List.lookup, keys]
  | cons p t ih =>
    obtain ⟨k, v⟩ := p
    by_cases h : n = k
    · subst h; simp [List.lookup, keys]
    · have hb : (n == k) = false := beq_eq_false_iff_ne.mpr h
      simp only [List.lookup, hb, keys, List.map_cons, List.mem_cons]
      rw [ih]
      simp [keys, h]

theorem depsOf_ne_nil_mem_keys {steps : Steps} {n d : String}
    (h : d ∈ depsOf steps n) : n ∈ keys steps := by
  rw [← lookup_isSome_iff]
  unfold depsOf at h
  cases hl : steps.lookup n with
  | none => rw [hl] at h; simp at h
  | some s => simp

/-- A node lying on a cycle is a key of the step mapping. -/
theorem cycle_node_mem_keys {steps : Steps} {c : String}
    (h : Reaches steps c c) : c ∈ keys steps := by
  obtain ⟨d, hd, _⟩ := h.head_decomp
  exact depsOf_ne_nil_mem_keys hd

theorem lookup_eq_some_of_mem {steps : Steps} {name : String} {step : WorkflowStep}
    (hnd : (keys steps).Nodup) (hm : (name, step) ∈ steps) :
    steps.lookup name = some step := by
  induction steps with
  | nil => simp at hm
  | cons p t ih =>
    obtain ⟨k, v⟩ := p
    simp only [keys, List.map_cons, List.nodup_cons] at hnd
    rcases List.mem_cons.mp hm with he | ht
    · have h1 : name = k := congrArg Prod.fst he
      have h2 : step = v := congrArg Prod.snd he
      subst h1; subst h2
      simp [List.lookup]
    · have hne : name ≠ k := by
        rintro rfl
        exact hnd.1 (List.mem_map_of_mem Prod.fst ht)
      have hb : (name == k) = false := beq_eq_false_iff_ne.mpr hne
      simp only [List.lookup, hb]
      exact ih hnd.2 ht

/-- A duplicate-free list that is elementwise contained in another is no
longer than it. -/
theorem nodup_subset_length {l t : List String} (hnd : l.Nodup)
    (hsub : ∀ x ∈ l, x ∈ t) : l.length ≤ t.length :=
  (hnd.subperm hsub).length_le

/-! ### Properties of the depth-first traversal in `validate` -/

/-- The `path` set of the traversal, viewed as a list with the most recently
entered node first, is a chain of `depends_on` edges: each node is a declared
dependency of the node entered just before it. -/
def PathChain (steps : Steps) : List String → Prop
  | [] => True
  | [_] => True
  | a :: b :: r => a ∈ depsOf steps b ∧ PathChain steps (b :: r)

/-- The node currently being visited is a dependency of the most recently
entered node on the path (trivially true for the top-level calls). -/
def HeadConn (steps : Steps) (n : String) : List String → Prop
  | [] => True
  | a :: _ => n ∈ depsOf steps a

/-- Every node on a chain path reaches the head of the path (or is the head). -/
theorem chain_reaches {steps : Steps} :
    ∀ {a : String} {r : List String} {n : String}, PathChain steps (a :: r) →
      n ∈ a :: r → n = a ∨ Reaches steps n a := by
  intro a r
  induction r generalizing a with
  | nil =>
    intro n _ hm
    rcases List.mem_cons.mp hm with h | h
    · exact Or.inl h
    · simp at h
  | cons b r ih =>
    intro n hc hm
    rcases List.mem_cons.mp hm with h | h
    · exact Or.inl h
    · have hba : Reaches steps b a := Reaches.single hc.1
      rcases ih hc.2 h with h1 | h1
      · exact Or.inr (h1 ▸ hba)
      · exact Or.inr (h1.trans2 hba)

/-- If the node being visited already lies on the path, it lies on a cycle. -/
theorem cycle_of_path_hit {steps : Steps} {n : String} {p : List String}
    (hc : PathChain steps p) (hh : HeadConn steps n p) (hm : n ∈ p) :
    Reaches steps n n := by
  cases p with
  | nil => simp at hm
  | cons a r =>
    have han : Reaches steps a n := Reaches.single hh
    rcases chain_reaches hc hm with h | h
    · exact h ▸ han
    · exact h.trans2 han

/-- On a `True` return, `visit` restores the path, grows the visited set, and
records the visited node; and it preserves the invariant that every visited
node has no reachable cycle.  The analogous facts hold for the dependency
loop `visitDeps`. -/
theorem visit_true_spec {steps : Steps} :
    ∀ fuel n st st1, visit steps fuel n st = .ok (true, st1) →
      st1.path = st.path ∧ st.visited ⊆ st1.visited ∧ n ∈ st1.visited ∧
      ((∀ m ∈ st.visited, ¬ CycleFrom steps m) → ∀ m ∈ st1.visited, ¬ CycleFrom steps m) := by
  intro fuel
  induction fuel with
  | zero => intro n st st1 h; simp [visit] at h
  | succ fuel ih =>
    have ihd : ∀ ds st st1, visitDeps steps (fun d st2 => visit steps fuel d st2) ds st =
        .ok (true, st1) →
        st1.path = st.path ∧ st.visited ⊆ st1.visited ∧ (∀ d ∈ ds, d ∈ st1.visited) ∧
        ((∀ m ∈ st.visited, ¬ CycleFrom steps m) → ∀ m ∈ st1.visited, ¬ CycleFrom steps m) := by
      intro ds
      induction ds with
      | nil =>
        intro st st1 h
        simp only [visitDeps, Except.ok.injEq, Prod.mk.injEq, true_and] at h
        subst h
        exact ⟨rfl, fun x hx => hx, by simp, fun hs => hs⟩
      | cons d ds ihds =>
        intro st st1 h
        simp only [visitDeps] at h
        split at h
        · cases hv : visit steps fuel d st with
          | error e => rw [hv] at h; simp at h
          | ok p =>
            obtain ⟨b, st2⟩ := p
            rw [hv] at h
            cases b with
            | false => simp at h
            | true =>
              simp only at h
              obtain ⟨hp1, hs1, hm1, hsafe1⟩ := ih d st st2 hv
              obtain ⟨hp2, hs2, hm2, hsafe2⟩ := ihds st2 st1 h
              refine ⟨hp2.trans hp1, fun x hx => hs2 (hs1 hx), ?_, fun hs => hsafe2 (hsafe1 hs)⟩
              intro x hx
              rcases List.mem_cons.mp hx with he | ht
              · exact he ▸ hs2 hm1
              · exact hm2 x ht
        · simp at h
    intro n st st1 h
    simp only [visit] at h
    by_cases hp : n ∈ st.path
    · rw [if_pos hp] at h; simp at h
    · rw [if_neg hp] at h
      by_cases hv : n ∈ st.visited
      · rw [if_pos hv] at h
        simp only [Except.ok.injEq, Prod.mk.injEq, true_and] at h
        subst h
        exact ⟨rfl, fun x hx => hx, hv, fun hs => hs⟩
      · rw [if_neg hv] at h
        cases hd : visitDeps steps (fun d st2 => visit steps fuel d st2) (depsOf steps n)
            { st with path := n :: st.path } with
        | error e => rw [hd] at h; simp at h
        | ok p =>
          obtain ⟨b, st2⟩ := p
          rw [hd] at h
          cases b with
          | false => simp at h
          | true =>
            simp only [Except.ok.injEq, Prod.mk.injEq, true_and] at h
            subst h
            obtain ⟨hp1, hs1, hmem1, hsafe1⟩ := ihd _ _ _ hd
            constructor
            · show st2.path.erase n = st.path
              rw [hp1]
              exact List.erase_cons_head n st.path
            refine ⟨fun x hx => List.mem_cons_of_mem n (hs1 hx), List.mem_cons_self n _, ?_⟩
            intro hsafe m hm
            have hsafe2 := hsafe1 hsafe
            rcases List.mem_cons.mp hm with he | ht
            · subst he
              rintro ⟨c, hcn, hcc⟩
              rcases hcn with rfl | hre
              · obtain ⟨d, hd2, hdc⟩ := hcc.head_decomp
                refine hsafe2 d (hmem1 d hd2) ⟨c, ?_, hcc⟩
                rcases hdc with rfl | hr
                · exact Or.inl rfl
                · exact Or.inr hr
              · obtain ⟨d, hd2, hdc⟩ := hre.head_decomp
                refine hsafe2 d (hmem1 d hd2) ⟨c, ?_, hcc⟩
                rcases hdc with rfl | hr
                · exact Or.inl rfl
                · exact Or.inr hr
            · exact hsafe2 m ht

/-- On a `False` return under the traversal invariants, a cycle is reachable
from the visited node. -/
theorem visit_false_cycle {steps : Steps} (hk : (keys steps).Nodup) :
    ∀ fuel n st st1,
      PathChain steps st.path → HeadConn steps n st.path → st.path.Nodup →
      (∀ x ∈ st.path, x ∈ keys steps) → n ∈ keys steps →
      (keys steps).length - st.path.length < fuel →
      visit steps fuel n st = .ok (false, st1) → CycleFrom steps n := by
  intro fuel
  induction fuel with
  | zero => intro n st st1 _ _ _ _ _ hf; omega
  | succ fuel ih =>
    have ihd : ∀ m ds st st1, st.path.head? = some m →
        (∀ d ∈ ds, d ∈ depsOf steps m) → PathChain steps st.path → st.path.Nodup →
        (∀ x ∈ st.path, x ∈ keys steps) →
        (keys steps).length - st.path.length < fuel →
        visitDeps steps (fun d st2 => visit steps fuel d st2) ds st = .ok (false, st1) →
        CycleFrom steps m := by
      intro m ds
      induction ds with
      | nil => intro st st1 _ _ _ _ _ _ h; simp [visitDeps] at h
      | cons d ds ihds =>
        intro st st1 hhd hds hch hnd hsub hf h
        simp only [visitDeps] at h
        split at h
        case isFalse => simp at h
        case isTrue hl =>
          have hdm : d ∈ depsOf steps m := hds d (List.mem_cons_self d ds)
          have hdk2 : d ∈ keys steps := lookup_isSome_iff.mp hl
          have hconn : HeadConn steps d st.path := by
            cases hpth : st.path with
            | nil => rw [hpth] at hhd; simp at hhd
            | cons a r =>
              rw [hpth] at hhd
              simp only [List.head?_cons, Option.some.injEq] at hhd
              exact show d ∈ depsOf steps a from hhd ▸ hdm
          cases hv : visit steps fuel d st with
          | error e => rw [hv] at h; simp at h
          | ok p =>
            obtain ⟨b, st2⟩ := p
            rw [hv] at h
            cases b with
            | false =>
              have hcd : CycleFrom steps d := ih d st st2 hch hconn hnd hsub hdk2 hf hv
              obtain ⟨c, hc, hcc⟩ := hcd
              refine ⟨c, Or.inr ?_, hcc⟩
              rcases hc with rfl | hr
              · exact Reaches.single hdm
              · exact (Reaches.single hdm).trans2 hr
            | true =>
              simp only at h
              obtain ⟨hp1, _, _, _⟩ := visit_true_spec fuel d st st2 hv
              exact ihds st2 st1 (hp1 ▸ hhd) (fun x hx => hds x (List.mem_cons_of_mem d hx))
                (hp1 ▸ hch) (hp1 ▸ hnd) (hp1 ▸ hsub) (hp1 ▸ hf) h
    intro n st st1 hch hhc hnd hsub hn hf h
    simp only [visit] at h
    by_cases hp : n ∈ st.path
    · exact ⟨n, Or.inl rfl, cycle_of_path_hit hch hhc hp⟩
    · rw [if_neg hp] at h
      by_cases hv : n ∈ st.visited
      · rw [if_pos hv] at h; simp at h
      · rw [if_neg hv] at h
        cases hd : visitDeps steps (fun d st2 => visit steps fuel d st2) (depsOf steps n)
            { st with path := n :: st.path } with
        | error e => rw [hd] at h; simp at h
        | ok p =>
          obtain ⟨b, st2⟩ := p
          rw [hd] at h
          cases b with
          | true => simp only at h; simp at h
          | false =>
            have hlen : (n :: st.path).length ≤ (keys steps).length := by
              refine nodup_subset_length (List.nodup_cons.mpr ⟨hp, hnd⟩) ?_
              intro x hx
              rcases List.mem_cons.mp hx with rfl | hx2
              · exact hn
              · exact hsub x hx2
            refine ihd n (depsOf steps n) { st with path := n :: st.path } st2 rfl
              (fun d hd2 => hd2) ?_ (List.nodup_cons.mpr ⟨hp, hnd⟩) ?_ ?_ hd
            · show PathChain steps (n :: st.path)
              cases hpth : st.path with
              | nil => simp [PathChain]
              | cons a r =>
                rw [hpth] at hhc hch
                exact ⟨hhc, hch⟩
            · intro x hx
              rcases List.mem_cons.mp hx with rfl | hx2
              · exact hn
              · exact hsub x hx2
            · simp only [List.length_cons]
              simp only [List.length_cons] at hlen
              omega

/-- When every dependency of every step is a step, `visit` never raises the
dependency-not-found `ValueError`. -/
theorem visit_no_error {steps : Steps} (hdk : DepsKnown steps) :
    ∀ fuel n st e, n ∈ keys steps → visit steps fuel n st ≠ .error e := by
  intro fuel
  induction fuel with
  | zero => intro n st e _ h; simp [visit] at h
  | succ fuel ih =>
    have ihd : ∀ ds st e, (∀ d ∈ ds, d ∈ keys steps) →
        visitDeps steps (fun d st2 => visit steps fuel d st2) ds st ≠ .error e := by
      intro ds
      induction ds with
      | nil => intro st e _ h; simp [visitDeps] at h
      | cons d ds ihds =>
        intro st e hds h
        simp only [visitDeps] at h
        split at h
        case isFalse hl =>
          exact hl (lookup_isSome_iff.mpr (hds d (List.mem_cons_self d ds)))
        case isTrue hl =>
          cases hv : visit steps fuel d st with
          | error e2 =>
            exact ih d st e2 (hds d (List.mem_cons_self d ds)) hv
          | ok p =>
            obtain ⟨b, st2⟩ := p
            rw [hv] at h
            cases b with
            | false => simp at h
            | true =>
              simp only at h
              exact ihds st2 e (fun x hx => hds x (List.mem_cons_of_mem d hx)) h
    intro n st e hn h
    simp only [visit] at h
    by_cases hp : n ∈ st.path
    · rw [if_pos hp] at h; simp at h
    · rw [if_neg hp] at h
      by_cases hv : n ∈ st.visited
      · rw [if_pos hv] at h; simp at h
      · rw [if_neg hv] at h
        cases hd : visitDeps steps (fun d st2 => visit steps fuel d st2) (depsOf steps n)
            { st with path := n :: st.path } with
        | error e2 =>
          exact ihd (depsOf steps n) { st with path := n :: st.path } e2 (hdk n hn) hd
        | ok p =>
          obtain ⟨b, st2⟩ := p
          rw [hd] at h
          cases b <;> simp at h

/-- On an acyclic graph with all dependencies known, `visit` returns `True`. -/
theorem visit_true_complete {steps : Steps} (hk : (keys steps).Nodup)
    (hdk : DepsKnown steps) (hac : Acyclic steps) :
    ∀ fuel n st,
      PathChain steps st.path → HeadConn steps n st.path → st.path.Nodup →
      (∀ x ∈ st.path, x ∈ keys steps) → n ∈ keys steps →
      (keys steps).length - st.path.length < fuel →
      ∃ st1, visit steps fuel n st = .ok (true, st1) := by
  intro fuel
  induction fuel with
  | zero => intro n st _ _ _ _ _ hf; omega
  | succ fuel ih =>
    have ihd : ∀ m ds st, st.path.head? = some m →
        (∀ d ∈ ds, d ∈ depsOf steps m) → PathChain steps st.path → st.path.Nodup →
        (∀ x ∈ st.path, x ∈ keys steps) →
        (keys steps).length - st.path.length < fuel →
        ∃ st1, visitDeps steps (fun d st2 => visit steps fuel d st2) ds st =
          .ok (true, st1) := by
      intro m ds
      induction ds with
      | nil => intro st _ _ _ _ _ _; exact ⟨st, by simp [visitDeps]⟩
      | cons d ds ihds =>
        intro st hhd hds hch hnd hsub hf
        have hmem : m ∈ st.path := by
          cases hpth : st.path with
          | nil => rw [hpth] at hhd; simp at hhd
          | cons a r =>
            rw [hpth] at hhd
            simp only [List.head?_cons, Option.some.injEq] at hhd
            exact hhd ▸ List.mem_cons_self a r
        have hdm : d ∈ depsOf steps m := hds d (List.mem_cons_self d ds)
        have hdkey : d ∈ keys steps := hdk m (hsub m hmem) d hdm
        have hconn : HeadConn steps d st.path := by
          cases hpth : st.path with
          | nil => rw [hpth] at hhd; simp at hhd
          | cons a r =>
            rw [hpth] at hhd
            simp only [List.head?_cons, Option.some.injEq] at hhd
            exact show d ∈ depsOf steps a from hhd ▸ hdm
        obtain ⟨st2, hv⟩ := ih d st hch hconn hnd hsub hdkey hf
        obtain ⟨hp1, _, _, _⟩ := visit_true_spec fuel d st st2 hv
        obtain ⟨st3, h3⟩ := ihds st2 (hp1 ▸ hhd) (fun x hx => hds x (List.mem_cons_of_mem d hx))
          (hp1 ▸ hch) (hp1 ▸ hnd) (hp1 ▸ hsub) (hp1 ▸ hf)
        refine ⟨st3, ?_⟩
        simp only [visitDeps]
        rw [if_pos (lookup_isSome_iff.mpr hdkey), hv]
        exact h3
    intro n st hch hhc hnd hsub hn hf
    by_cases hp : n ∈ st.path
    · exact absurd (cycle_of_path_hit hch hhc hp) (hac n)
    by_cases hv : n ∈ st.visited
    · refine ⟨st, ?_⟩
      simp only [visit]
      rw [if_neg hp, if_pos hv]
    have hlen : (n :: st.path).length ≤ (keys steps).length := by
      refine nodup_subset_length (List.nodup_cons.mpr ⟨hp, hnd⟩) ?_
      intro x hx
      rcases List.mem_cons.mp hx with rfl | hx2
      · exact hn
      · exact hsub x hx2
    obtain ⟨st2, h2⟩ := ihd n (depsOf steps n) { st with path := n :: st.path } rfl
      (fun d hd2 => hd2)
      (by
        show PathChain steps (n :: st.path)
        cases hpth : st.path with
        | nil => simp [PathChain]
        | cons a r =>
          rw [hpth] at hhc hch
          exact ⟨hhc, hch⟩)
      (List.nodup_cons.mpr ⟨hp, hnd⟩)
      (by
        intro x hx
        rcases List.mem_cons.mp hx with rfl | hx2
        · exact hn
        · exact hsub x hx2)
      (by
        simp only [List.length_cons]
        simp only [List.length_cons] at hlen
        omega)
    refine ⟨{ st2 with path := st2.path.erase n, visited := n :: st2.visited }, ?_⟩
    simp only [visit]
    rw [if_neg hp, if_neg hv, h2]

theorem validateLoop_ok_of_acyclic {steps : Steps} (hk : (keys steps).Nodup)
    (hdk : DepsKnown steps) (hac : Acyclic steps) :
    ∀ ns st, (∀ n ∈ ns, n ∈ keys steps) → st.path = [] →
      validateLoop steps ns st = .ok true := by
  intro ns
  induction ns with
  | nil => intro st _ _; rfl
  | cons n ns ihn =>
    intro st hns hp
    obtain ⟨st1, hv⟩ := visit_true_complete hk hdk hac (steps.length + 1) n st
      (by rw [hp]; simp [PathChain])
      (by rw [hp]; simp [HeadConn])
      (by rw [hp]; exact List.nodup_nil)
      (by rw [hp]; intro x hx; simp at hx)
      (hns n (List.mem_cons_self n ns))
      (by rw [hp]; simp [keys])
    obtain ⟨hp1, _, _, _⟩ := visit_true_spec _ n st st1 hv
    simp only [validateLoop]
    rw [hv]
    exact ihn st1 (fun x hx => hns x (List.mem_cons_of_mem n hx)) (hp1.trans hp)

/-- `Workflow.validate` accepts acyclic step mappings with known deps. -/
theorem validate_ok_of_acyclic {steps : Steps} (hk : (keys steps).Nodup)
    (hdk : DepsKnown steps) (hac : Acyclic steps) : validate steps = .ok true :=
  validateLoop_ok_of_acyclic hk hdk hac (keys steps) ⟨[], []⟩ (fun _ hn => hn) rfl

theorem validateLoop_cases {steps : Steps} (hk : (keys steps).Nodup)
    (hdk : DepsKnown steps) :
    ∀ ns st, (∀ n ∈ ns, n ∈ keys steps) → st.path = [] →
      (∀ m ∈ st.visited, ¬ CycleFrom steps m) →
      (validateLoop steps ns st = .ok true ∧ ∀ n ∈ ns, ¬ CycleFrom steps n) ∨
      (∃ s, validateLoop steps ns st = .error (.circular s) ∧ CycleFrom steps s) := by
  intro ns
  induction ns with
  | nil => intro st _ _ _; exact Or.inl ⟨rfl, by simp⟩
  | cons n ns ihn =>
    intro st hns hp hsafe
    have hnk : n ∈ keys steps := hns n (List.mem_cons_self n ns)
    cases hv : visit steps (steps.length + 1) n st with
    | error e => exact absurd hv (visit_no_error hdk _ n st e hnk)
    | ok p =>
      obtain ⟨b, st1⟩ := p
      cases b with
      | false =>
        refine Or.inr ⟨n, ?_, ?_⟩
        · simp only [validateLoop]; rw [hv]
        · exact visit_false_cycle hk _ n st st1
            (by rw [hp]; simp [PathChain])
            (by rw [hp]; simp [HeadConn])
            (by rw [hp]; exact List.nodup_nil)
            (by rw [hp]; intro x hx; simp at hx)
            hnk
            (by rw [hp]; simp [keys])
            hv
      | true =>
        obtain ⟨hp1, _, hmem1, hsafe1⟩ := visit_true_spec _ n st st1 hv
        have hsafe2 := hsafe1 hsafe
        rcases ihn st1 (fun x hx => hns x (List.mem_cons_of_mem n hx)) (hp1.trans hp) hsafe2
          with ⟨hok, hall⟩ | ⟨s, herr, hcyc⟩
        · refine Or.inl ⟨?_, ?_⟩
          · simp only [validateLoop]; rw [hv]; exact hok
          · intro x hx
            rcases List.mem_cons.mp hx with rfl | hx2
            · exact hsafe2 x hmem1
            · exact hall x hx2
        · refine Or.inr ⟨s, ?_, hcyc⟩
          simp only [validateLoop]; rw [hv]; exact herr

/-- If the dependency graph has a cycle (and no unknown dependencies),
`Workflow.validate` raises the circular-dependency `ValueError`, naming a
step from which a cycle is reachable. -/
theorem validate_circular_of_cycle {steps : Steps} (hk : (keys steps).Nodup)
    (hdk : DepsKnown steps) (hcyc : ∃ c, Reaches steps c c) :
    ∃ s, validate steps = .error (.circular s) ∧ CycleFrom steps s := by
  rcases validateLoop_cases hk hdk (keys steps) ⟨[], []⟩ (fun _ hn => hn) rfl
      (by intro m hm; simp at hm) with ⟨_, hall⟩ | h
  · obtain ⟨c, hcc⟩ := hcyc
    exact absurd ⟨c, Or.inl rfl, hcc⟩ (hall c (cycle_node_mem_keys hcc))
  · exact h

/-- With known dependencies, `validate` succeeds exactly on acyclic graphs. -/
theorem validate_ok_iff_acyclic {steps : Steps} (hk : (keys steps).Nodup)
    (hdk : DepsKnown steps) : validate steps = .ok true ↔ Acyclic steps := by
  constructor
  · intro h n hr
    obtain ⟨s, herr, _⟩ := validate_circular_of_cycle hk hdk ⟨n, hr⟩
    rw [herr] at h
    exact Except.noConfusion h
  · exact validate_ok_of_acyclic hk hdk

/-! ### Properties of `_get_execution_order` (Kahn's algorithm) -/

/-- The order is topologically sorted: wherever a step occurs in it, all of its
dependencies occur strictly before it. -/
def Topo (steps : Steps) (order : List String) : Prop :=
  ∀ pre m post, order = pre ++ m :: post → ∀ d ∈ depsOf steps m, d ∈ pre

/-- Decompose an equation `l ++ [q] = pre ++ m :: post`: either `m` is the
appended `q`, or `m` occurs inside `l`. -/
theorem concat_eq_append_cases {l pre post : List String} {q m : String}
    (h : l ++ [q] = pre ++ m :: post) :
    (pre = l ∧ m = q ∧ post = []) ∨
    ∃ post1, post = post1 ++ [q] ∧ l = pre ++ m :: post1 := by
  rcases List.eq_nil_or_concat post with rfl | ⟨post1, a, rfl⟩
  · have := List.append_inj' h (by simp)
    exact Or.inl ⟨this.1.symm, by simpa using this.2.symm, rfl⟩
  · have h2 : l ++ [q] = (pre ++ m :: post1) ++ [a] := by
      simpa using h
    have := List.append_inj' h2 (by simp)
    exact Or.inr ⟨post1, by simpa using (this.2.symm ▸ rfl : post1 ++ [a] = post1 ++ [q]), this.1⟩

/-- Counting occurrences not yet placed in the grown order: removing the
occurrences of a fresh element `q` from the unplaced count. -/
theorem filter_concat_count (l : List String) {order : List String} {q : String}
    (hq : q ∉ order) :
    ((l.filter (fun d => !(decide (d ∈ order ++ [q])))).length + l.count q =
      (l.filter (fun d => !(decide (d ∈ order)))).length) := by
  induction l with
  | nil => simp
  | cons d l ih =>
    simp only [List.filter_cons]
    by_cases hdq : d = q
    · subst hdq
      have h1 : d ∈ order ++ [d] := by simp
      rw [if_neg (by simp [h1]), if_pos (by simp [hq]), List.count_cons_self,
        List.length_cons]
      omega
    · have h1 : (d ∈ order ++ [q]) ↔ (d ∈ order) := by simp [hdq]
      rw [List.count_cons_of_ne (fun he => hdq he.symm)]
      by_cases hdo : d ∈ order
      · rw [if_neg (by simp [h1, hdo]), if_neg (by simp [hdo])]
        exact ih
      · rw [if_pos (by simp [h1, hdo]), if_pos (by simp [hdo]), List.length_cons,
          List.length_cons]
        omega

/-- Occurrences of an element not in the excluded set survive the filter. -/
theorem count_filter_not_mem {l order : List String} {q : String} (hq : q ∉ order) :
    (l.filter (fun d => !(decide (d ∈ order)))).count q = l.count q := by
  induction l with
  | nil => simp
  | cons d l ih =>
    simp only [List.filter_cons]
    by_cases hdo : d ∈ order
    · have hdq : ¬ (q = d) := fun he => hq (he ▸ hdo)
      rw [if_neg (by simp [hdo]), List.count_cons_of_ne hdq]
      exact ih
    · rw [if_pos (by simp [hdo])]
      by_cases hdq : d = q
      · subst hdq
        rw [List.count_cons_self, List.count_cons_self]
        omega
      · rw [List.count_cons_of_ne (fun he => hdq he.symm),
          List.count_cons_of_ne (fun he => hdq he.symm)]
        exact ih

/-- Sum over the entries named `m` of how many times `x` occurs among the
dependencies: the total number of edges `x → m` recorded by the builder. -/
def countDeps (entries : List (String × WorkflowStep)) (x m : String) : Nat :=
  (entries.map (fun p => if p.1 = m then p.2.depends_on.count x else 0)).sum

/-- Total number of dependencies declared by entries named `x`. -/
def sumDeps (entries : List (String × WorkflowStep)) (x : String) : Nat :=
  (entries.map (fun p => if p.1 = x then p.2.depends_on.length else 0)).sum

theorem countDeps_cons {k : String} {v : WorkflowStep} {t : List (String × WorkflowStep)}
    {x m : String} :
    countDeps ((k, v) :: t) x m =
      (if k = m then v.depends_on.count x else 0) + countDeps t x m := by
  simp [countDeps]

theorem sumDeps_cons {k : String} {v : WorkflowStep} {t : List (String × WorkflowStep)}
    {x : String} :
    sumDeps ((k, v) :: t) x =
      (if k = x then v.depends_on.length else 0) + sumDeps t x := by
  simp [sumDeps]

theorem countDeps_eq_zero {entries : List (String × WorkflowStep)} {x m : String}
    (hm : m ∉ keys entries) : countDeps entries x m = 0 := by
  induction entries with
  | nil => rfl
  | cons p t ih =>
    obtain ⟨k, v⟩ := p
    have hmk : ¬ (k = m) := fun he => hm (by simp [keys, he])
    have hmt : m ∉ keys t := fun he => hm (by simp [keys]; exact Or.inr (by simpa [keys] using he))
    rw [countDeps_cons, if_neg hmk, ih hmt]

theorem sumDeps_eq_zero {entries : List (String × WorkflowStep)} {x : String}
    (hx : x ∉ keys entries) : sumDeps entries x = 0 := by
  induction entries with
  | nil => rfl
  | cons p t ih =>
    obtain ⟨k, v⟩ := p
    have hxk : ¬ (k = x) := fun he => hx (by simp [keys, he])
    have hxt : x ∉ keys t := fun he => hx (by simp [keys]; exact Or.inr (by simpa [keys] using he))
    rw [sumDeps_cons, if_neg hxk, ih hxt]

theorem countDeps_eq {steps : Steps} (hk : (keys steps).Nodup) (x m : String) :
    countDeps steps x m = (depsOf steps m).count x := by
  induction steps with
  | nil => simp [countDeps, depsOf, List.lookup]
  | cons p t ih =>
    obtain ⟨k, v⟩ := p
    simp only [keys, List.map_cons, List.nodup_cons] at hk
    by_cases hmk : m = k
    · subst hmk
      have h0 : countDeps t x m = 0 := countDeps_eq_zero (by simpa [keys] using hk.1)
      rw [countDeps_cons, if_pos rfl, h0]
      simp only [depsOf, List.lookup, beq_self_eq_true]
      omega
    · have hb : (m == k) = false := beq_eq_false_iff_ne.mpr hmk
      rw [countDeps_cons, if_neg (fun he => hmk he.symm)]
      simp only [depsOf, List.lookup, hb]
      simpa [depsOf] using ih hk.2

theorem sumDeps_eq {steps : Steps} (hk : (keys steps).Nodup) (x : String) :
    sumDeps steps x = (depsOf steps x).length := by
  induction steps with
  | nil => simp [sumDeps, depsOf, List.lookup]
  | cons p t ih =>
    obtain ⟨k, v⟩ := p
    simp only [keys, List.map_cons, List.nodup_cons] at hk
    by_cases hxk : x = k
    · subst hxk
      have h0 : sumDeps t x = 0 := sumDeps_eq_zero (by simpa [keys] using hk.1)
      rw [sumDeps_cons, if_pos rfl, h0]
      simp only [depsOf, List.lookup, beq_self_eq_true]
      omega
    · have hb : (x == k) = false := beq_eq_false_iff_ne.mpr hxk
      rw [sumDeps_cons, if_neg (fun he => hxk he.symm)]
      simp only [depsOf, List.lookup, hb]
      simpa [depsOf] using ih hk.2

theorem buildDeps_ok {steps : Steps} {name : String} :
    ∀ ds (g : String → List String) (ind : String → Int),
      (∀ d ∈ ds, d ∈ keys steps) →
      ∃ g1 ind1, buildDeps steps name ds g ind = .ok (g1, ind1) ∧
        (∀ x, g1 x = g x ++ List.replicate (ds.count x) name) ∧
        (∀ x, ind1 x = ind x + if x = name then (ds.length : Int) else 0) := by
  intro ds
  induction ds with
  | nil =>
    intro g ind _
    exact ⟨g, ind, rfl, fun x => by simp, fun x => by simp⟩
  | cons d ds ih =>
    intro g ind hds
    have hl : (steps.lookup d).isSome := lookup_isSome_iff.mpr (hds d (List.mem_cons_self d ds))
    obtain ⟨g1, ind1, heq, hg1, hind1⟩ := ih
      (fun x => if x = d then g d ++ [name] else g x)
      (fun x => if x = name then ind name + 1 else ind x)
      (fun x hx => hds x (List.mem_cons_of_mem d hx))
    refine ⟨g1, ind1, ?_, ?_, ?_⟩
    · simp only [buildDeps, if_pos hl]
      exact heq
    · intro x
      rw [hg1 x]
      by_cases hxd : x = d
      · subst hxd
        rw [if_pos rfl, List.count_cons_self, List.append_assoc, List.singleton_append,
          ← List.replicate_succ]
      · rw [if_neg hxd, List.count_cons_of_ne hxd]
    · intro x
      rw [hind1 x]
      by_cases hxn : x = name
      · subst hxn
        simp only [if_pos rfl, List.length_cons]
        push_cast
        ring
      · simp [if_neg hxn]

theorem buildLoop_ok {steps : Steps} :
    ∀ entries (g : String → List String) (ind : String → Int),
      (∀ p ∈ entries, ∀ d ∈ p.2.depends_on, d ∈ keys steps) →
      ∃ g1 ind1, buildLoop steps entries g ind = .ok (g1, ind1) ∧
        (∀ x m, (g1 x).count m = (g x).count m + countDeps entries x m) ∧
        (∀ x, ind1 x = ind x + (sumDeps entries x : Int)) := by
  intro entries
  induction entries with
  | nil =>
    intro g ind _
    exact ⟨g, ind, rfl, fun x m => by simp [countDeps], fun x => by simp [sumDeps]⟩
  | cons p t ih =>
    intro g ind hall
    obtain ⟨name, step⟩ := p
    obtain ⟨g1, ind1, heq1, hg1, hind1⟩ := buildDeps_ok step.depends_on g ind
      (hall (name, step) (List.mem_cons_self _ t))
    obtain ⟨g2, ind2, heq2, hg2, hind2⟩ := ih g1 ind1
      (fun q hq => hall q (List.mem_cons_of_mem _ hq))
    refine ⟨g2, ind2, ?_, ?_, ?_⟩
    · simp only [buildLoop]
      rw [heq1]
      exact heq2
    · intro x m
      rw [hg2 x m, hg1 x, countDeps_cons]
      rw [List.count_append, List.count_replicate]
      by_cases hmn : m = name
      · subst hmn
        simp only [beq_self_eq_true, if_pos rfl, if_true]
        omega
      · have hb : (name == m) = false := beq_eq_false_iff_ne.mpr (fun he => hmn he.symm)
        rw [hb, if_neg (fun he : name = m => hmn he.symm)]
        simp only [Bool.false_eq_true, if_false]
        omega
    · intro x
      rw [hind2 x, hind1 x, sumDeps_cons]
      by_cases hxn : x = name
      · subst hxn
        rw [if_pos rfl, if_pos rfl]
        push_cast
        ring
      · rw [if_neg hxn, if_neg (fun he => hxn he.symm)]
        push_cast
        ring

/-- The in-degree map after the `in_degree[neighbor] -= 1` assignment. -/
def decInd (n : String) (ind : String → Int) : String → Int :=
  fun x => if x = n then ind n - 1 else ind x

theorem decInd_self (n : String) (ind : String → Int) : decInd n ind n = ind n - 1 := by
  simp [decInd]

theorem decInd_ne {x n : String} (ind : String → Int) (h : x ≠ n) : decInd n ind x = ind x := by
  simp [decInd, h]

theorem processNeighbors_cons (n : String) (ms queue : List String) (ind : String → Int) :
    processNeighbors (n :: ms) queue ind =
      processNeighbors ms (if ind n - 1 = 0 then queue ++ [n] else queue) (decInd n ind) := by
  simp only [processNeighbors]
  norm_num
  rfl

/-- Effect of one pass of the neighbour loop: every neighbour occurrence is
decremented once, and exactly the nodes whose in-degree lands on zero during
the pass are appended to the queue (each at most once). -/
theorem processNeighbors_spec :
    ∀ (ms queue : List String) (ind : String → Int),
      queue.Nodup → (∀ m ∈ queue, ind m ≤ 0) →
      (∀ x, (processNeighbors ms queue ind).2 x = ind x - (ms.count x : Int)) ∧
      (∀ m, m ∈ (processNeighbors ms queue ind).1 ↔
        (m ∈ queue ∨ (1 ≤ ind m ∧ ind m ≤ (ms.count m : Int)))) ∧
      (processNeighbors ms queue ind).1.Nodup ∧
      (∀ m ∈ (processNeighbors ms queue ind).1, (processNeighbors ms queue ind).2 m ≤ 0) := by
  intro ms
  induction ms with
  | nil =>
    intro queue ind hnd hle
    refine ⟨fun x => by simp [processNeighbors], fun m => ?_, hnd, fun m hm => hle m hm⟩
    simp only [processNeighbors, List.count_nil, Nat.cast_zero]
    constructor
    · exact fun h => Or.inl h
    · rintro (h | ⟨h1, h2⟩)
      · exact h
      · omega
  | cons n ms ih =>
    intro queue ind hnd hle
    rw [processNeighbors_cons]
    by_cases hz : ind n - 1 = 0
    · rw [if_pos hz]
      have hnq : n ∉ queue := fun hn => by have := hle n hn; omega
      have hnd1 : (queue ++ [n]).Nodup := by
        rw [List.nodup_append]
        refine ⟨hnd, List.nodup_singleton n, ?_⟩
        intro a ha hb
        rw [List.mem_singleton] at hb
        exact hnq (hb ▸ ha)
      have hle1 : ∀ m ∈ queue ++ [n], decInd n ind m ≤ 0 := by
        intro m hm
        rcases List.mem_append.mp hm with h | h
        · have hmn : m ≠ n := fun he => hnq (he ▸ h)
          rw [decInd_ne ind hmn]
          exact hle m h
        · rw [List.mem_singleton] at h
          subst h
          rw [decInd_self]
          omega
      obtain ⟨hI, hM, hN, hL⟩ := ih (queue ++ [n]) (decInd n ind) hnd1 hle1
      refine ⟨?_, ?_, hN, hL⟩
      · intro x
        rw [hI x]
        by_cases hxn : x = n
        · subst hxn
          rw [decInd_self, List.count_cons_self]
          push_cast
          ring
        · rw [decInd_ne ind hxn, List.count_cons_of_ne hxn]
      · intro m
        rw [hM m]
        by_cases hmn : m = n
        · subst hmn
          rw [decInd_self, List.count_cons_self]
          constructor
          · rintro (h | ⟨h1, h2⟩)
            · rcases List.mem_append.mp h with h | h
              · exact Or.inl h
              · refine Or.inr ⟨by omega, ?_⟩
                push_cast
                omega
            · exfalso
              omega
          · rintro (h | ⟨h1, h2⟩)
            · exact Or.inl (List.mem_append_left _ h)
            · exact Or.inl (List.mem_append_right _ (List.mem_singleton.mpr rfl))
        · rw [decInd_ne ind hmn, List.count_cons_of_ne hmn]
          constructor
          · rintro (h | hfresh)
            · rcases List.mem_append.mp h with h | h
              · exact Or.inl h
              · rw [List.mem_singleton] at h
                exact absurd h hmn
            · exact Or.inr hfresh
          · rintro (h | hfresh)
            · exact Or.inl (List.mem_append_left _ h)
            · exact Or.inr hfresh
    · rw [if_neg hz]
      have hle1 : ∀ m ∈ queue, decInd n ind m ≤ 0 := by
        intro m hm
        by_cases hmn : m = n
        · subst hmn
          rw [decInd_self]
          have := hle m hm
          omega
        · rw [decInd_ne ind hmn]
          exact hle m hm
      obtain ⟨hI, hM, hN, hL⟩ := ih queue (decInd n ind) hnd hle1
      refine ⟨?_, ?_, hN, hL⟩
      · intro x
        rw [hI x]
        by_cases hxn : x = n
        · subst hxn
          rw [decInd_self, List.count_cons_self]
          push_cast
          ring
        · rw [decInd_ne ind hxn, List.count_cons_of_ne hxn]
      · intro m
        rw [hM m]
        by_cases hmn : m = n
        · subst hmn
          rw [decInd_self, List.count_cons_self]
          constructor
          · rintro (h | ⟨h1, h2⟩)
            · exact Or.inl h
            · refine Or.inr ⟨by omega, ?_⟩
              push_cast at h2 ⊢
              omega
          · rintro (h | ⟨h1, h2⟩)
            · exact Or.inl h
            · refine Or.inr ⟨by omega, ?_⟩
              push_cast at h2 ⊢
              omega
        · rw [decInd_ne ind hmn, List.count_cons_of_ne hmn]

/-- Invariant of the Kahn loop: the placed order and the pending queue are
duplicate-free step names; the in-degree of each node counts its dependency
occurrences not yet placed; the queue holds exactly the unplaced ready nodes;
and the placed order is topologically sorted. -/
structure KInv (steps : Steps) (ind : String → Int) (order queue : List String) : Prop where
  nodup : (order ++ queue).Nodup
  subk : ∀ x ∈ order ++ queue, x ∈ keys steps
  indeg : ∀ m, ind m =
    (((depsOf steps m).filter (fun d => !(decide (d ∈ order)))).length : Int)
  ready : ∀ m, m ∈ queue ↔ (m ∈ keys steps ∧ m ∉ order ∧ ind m = 0)
  topo : Topo steps order

theorem deps_in_order_of_filter_len_zero {l order : List String}
    (h : (l.filter (fun d => !(decide (d ∈ order)))).length = 0) :
    ∀ d ∈ l, d ∈ order := by
  intro d hd
  by_contra hdo
  rw [List.length_eq_zero] at h
  have : d ∈ l.filter (fun d => !(decide (d ∈ order))) :=
    List.mem_filter.mpr ⟨hd, by simp [hdo]⟩
  rw [h] at this
  simp at this

/-- A node already placed in the order has in-degree zero and all of its
dependencies placed. -/
theorem mem_order_facts {steps : Steps} {ind : String → Int} {order queue : List String}
    (hinv : KInv steps ind order queue) {m : String} (hm : m ∈ order) :
    ind m = 0 ∧ ∀ d ∈ depsOf steps m, d ∈ order := by
  obtain ⟨pre, post, rfl⟩ := List.append_of_mem hm
  have hdeps := hinv.topo pre m post rfl
  have hdo : ∀ d ∈ depsOf steps m, d ∈ pre ++ m :: post := by
    intro d hd
    exact List.mem_append_left _ (hdeps d hd)
  have hfe : (depsOf steps m).filter (fun d => !(decide (d ∈ pre ++ m :: post))) = [] := by
    rw [List.filter_eq_nil]
    intro d hd
    simp [hdo d hd]
  constructor
  · rw [hinv.indeg m, hfe]
    rfl
  · exact hdo

/-- One iteration of the Kahn loop preserves the invariant. -/
theorem kahn_step {steps : Steps} {g : String → List String} {ind : String → Int}
    {order qs : List String} {q : String}
    (hg : ∀ x m, (g x).count m = (depsOf steps m).count x)
    (hinv : KInv steps ind order (q :: qs)) :
    KInv steps (processNeighbors (g q) qs ind).2 (order ++ [q])
      (processNeighbors (g q) qs ind).1 := by
  have hqready := (hinv.ready q).mp (List.mem_cons_self q qs)
  obtain ⟨hqk, hqo, hqz⟩ := hqready
  have hnodup := hinv.nodup
  rw [List.nodup_append] at hnodup
  obtain ⟨hondp, hqqs, hdisj⟩ := hnodup
  rw [List.nodup_cons] at hqqs
  obtain ⟨hqnqs, hqsnd⟩ := hqqs
  have hqsle : ∀ m ∈ qs, ind m ≤ 0 := by
    intro m hm
    have := ((hinv.ready m).mp (List.mem_cons_of_mem q hm)).2.2
    omega
  obtain ⟨hI, hM, hN, hL⟩ := processNeighbors_spec (g q) qs ind hqsnd hqsle
  -- count of unplaced occurrences of q among the dependencies of m
  have hcnt_le : ∀ m, ((depsOf steps m).count q : Int) ≤ ind m := by
    intro m
    have h1 : ((depsOf steps m).filter (fun d => !(decide (d ∈ order)))).count q =
        (depsOf steps m).count q := count_filter_not_mem hqo
    have h2 := List.count_le_length q
      ((depsOf steps m).filter (fun d => !(decide (d ∈ order))))
    rw [hinv.indeg m]
    omega
  have hindeg1 : ∀ m, (processNeighbors (g q) qs ind).2 m =
      (((depsOf steps m).filter (fun d => !(decide (d ∈ order ++ [q])))).length : Int) := by
    intro m
    rw [hI m, hg q m, hinv.indeg m]
    have := filter_concat_count (depsOf steps m) hqo
    omega
  have hfresh_keys : ∀ m, 1 ≤ ind m → m ∈ keys steps := by
    intro m h1
    rw [hinv.indeg m] at h1
    have hpos : 0 < ((depsOf steps m).filter (fun d => !(decide (d ∈ order)))).length := by
      omega
    obtain ⟨d, hd⟩ := List.exists_mem_of_length_pos hpos
    exact depsOf_ne_nil_mem_keys (List.mem_of_mem_filter hd)
  have hfresh_no : ∀ m, 1 ≤ ind m → m ∉ order ∧ m ≠ q := by
    intro m h1
    constructor
    · intro hmo
      have := (mem_order_facts hinv hmo).1
      omega
    · rintro rfl
      omega
  refine ⟨?_, ?_, hindeg1, ?_, ?_⟩
  · -- nodup of (order ++ [q]) ++ queue1
    rw [List.nodup_append]
    refine ⟨?_, hN, ?_⟩
    · rw [List.nodup_append]
      refine ⟨hondp, List.nodup_singleton q, ?_⟩
      intro a ha hb
      rw [List.mem_singleton] at hb
      exact hqo (hb ▸ ha)
    · intro a ha hb
      rcases (hM a).mp hb with h | ⟨h1, h2⟩
      · rcases List.mem_append.mp ha with ha2 | ha2
        · exact hdisj ha2 (List.mem_cons_of_mem q h)
        · rw [List.mem_singleton] at ha2
          exact hqnqs (ha2 ▸ h)
      · rcases List.mem_append.mp ha with ha2 | ha2
        · exact (hfresh_no a h1).1 ha2
        · rw [List.mem_singleton] at ha2
          exact (hfresh_no a h1).2 ha2
  · -- all names are step keys
    intro x hx
    rcases List.mem_append.mp hx with hx | hx
    · rcases List.mem_append.mp hx with hx | hx
      · exact hinv.subk x (List.mem_append_left _ hx)
      · rw [List.mem_singleton] at hx
        exact hx ▸ hqk
    · rcases (hM x).mp hx with h | ⟨h1, _⟩
      · exact hinv.subk x (List.mem_append_right _ (List.mem_cons_of_mem q h))
      · exact hfresh_keys x h1
  · -- queue membership characterisation
    intro m
    rw [hM m, hindeg1 m]
    have hfc := filter_concat_count (depsOf steps m) hqo
    constructor
    · rintro (h | ⟨h1, h2⟩)
      · obtain ⟨hk2, ho2, hz2⟩ := (hinv.ready m).mp (List.mem_cons_of_mem q h)
        have hmq : m ≠ q := fun he => hqnqs (he ▸ h)
        have hc0 : (depsOf steps m).count q = 0 := by
          have := hcnt_le m
          omega
        refine ⟨hk2, ?_, ?_⟩
        · intro hmo
          rcases List.mem_append.mp hmo with h3 | h3
          · exact ho2 h3
          · rw [List.mem_singleton] at h3
            exact hmq h3
        · rw [hinv.indeg m] at hz2
          omega
      · rw [hg q m] at h2
        have hle := hcnt_le m
        have heq : ind m = ((depsOf steps m).count q : Int) := le_antisymm h2 hle
        refine ⟨hfresh_keys m h1, ?_, ?_⟩
        · intro hmo
          rcases List.mem_append.mp hmo with h3 | h3
          · exact (hfresh_no m h1).1 h3
          · rw [List.mem_singleton] at h3
            exact (hfresh_no m h1).2 h3
        · rw [hinv.indeg m] at heq
          omega
    · rintro ⟨hk2, ho2, hz2⟩
      have hmo : m ∉ order := fun h => ho2 (List.mem_append_left _ h)
      have hmq : m ≠ q := fun he => ho2 (List.mem_append_right _ (List.mem_singleton.mpr he))
      by_cases hc : (depsOf steps m).count q = 0
      · refine Or.inl ?_
        have hio := hinv.indeg m
        have hz3 : ind m = 0 := by omega
        have := (hinv.ready m).mpr ⟨hk2, hmo, hz3⟩
        rcases List.mem_cons.mp this with he | hqs2
        · exact absurd he hmq
        · exact hqs2
      · refine Or.inr ?_
        rw [hg q m]
        have hio := hinv.indeg m
        constructor
        · omega
        · omega
  · -- topological order is preserved by appending a ready node
    intro pre m post hsplit d hd
    rcases concat_eq_append_cases hsplit with ⟨rfl, rfl, rfl⟩ | ⟨post1, hpost, hord⟩
    · have hfz : ((depsOf steps m).filter (fun d => !(decide (d ∈ pre)))).length = 0 := by
        rw [hinv.indeg m] at hqz
        omega
      exact deps_in_order_of_filter_len_zero hfz d hd
    · exact hinv.topo pre m post1 hord d hd

/-- In an acyclic graph, every nonempty set of steps contains a node none of
whose dependencies lie in the set. -/
theorem exists_source {steps : Steps} (hac : Acyclic steps) :
    ∀ R : List String, R ≠ [] →
      ∃ m ∈ R, ∀ d ∈ depsOf steps m, d ∉ R := by
  intro R hne
  by_contra hno
  push_neg at hno
  have hch : ∀ x : String, ∃ y : String, x ∈ R → y ∈ depsOf steps x ∧ y ∈ R := by
    intro x
    by_cases hx : x ∈ R
    · obtain ⟨d, hd1, hd2⟩ := hno x hx
      exact ⟨d, fun _ => ⟨hd1, hd2⟩⟩
    · exact ⟨x, fun hx2 => absurd hx2 hx⟩
  choose f hf using hch
  obtain ⟨x0, hx0⟩ := List.exists_mem_of_ne_nil R hne
  have hmem : ∀ k, f^[k] x0 ∈ R := by
    intro k
    induction k with
    | zero => simpa using hx0
    | succ k ihk =>
      rw [Function.iterate_succ_apply']
      exact (hf (f^[k] x0) ihk).2
  have hstep : ∀ k, f^[k + 1] x0 ∈ depsOf steps (f^[k] x0) := by
    intro k
    rw [Function.iterate_succ_apply']
    exact (hf (f^[k] x0) (hmem k)).1
  have hreach : ∀ a b, a < b → Reaches steps (f^[a] x0) (f^[b] x0) := by
    intro a b hab
    induction b, hab using Nat.le_induction with
    | base => exact Reaches.single (hstep a)
    | succ b hb ihb => exact ihb.tail (hstep b)
  have hnotnodup : ¬ ((List.range (R.length + 1)).map (fun k => f^[k] x0)).Nodup := by
    intro hnd
    have hlen := nodup_subset_length hnd (by
      intro x hx
      obtain ⟨k, _, rfl⟩ := List.mem_map.mp hx
      exact hmem k)
    simp at hlen
  have hdup : ∃ i j, i < j ∧ f^[i] x0 = f^[j] x0 := by
    by_contra hnodup2
    push_neg at hnodup2
    refine hnotnodup (List.Nodup.map_on ?_ (List.nodup_range _))
    intro i _ j _ hij
    rcases Nat.lt_trichotomy i j with h | h | h
    · exact absurd hij (hnodup2 i j h)
    · exact h
    · exact absurd hij.symm (hnodup2 j i h)
  obtain ⟨i, j, hij, heq⟩ := hdup
  exact hac (f^[i] x0) (heq ▸ hreach i j hij)

/-- The Kahn loop, run with enough fuel from an invariant state on an acyclic
graph with known dependencies, places every step exactly once in dependency
order. -/
theorem kahnLoop_spec {steps : Steps} {g : String → List String}
    (hk : (keys steps).Nodup) (hdk : DepsKnown steps) (hac : Acyclic steps)
    (hg : ∀ x m, (g x).count m = (depsOf steps m).count x) :
    ∀ fuel order queue ind, KInv steps ind order queue →
      (keys steps).length - order.length < fuel →
      (kahnLoop g fuel queue order ind).Perm (keys steps) ∧
        Topo steps (kahnLoop g fuel queue order ind) := by
  intro fuel
  induction fuel with
  | zero => intro order queue ind _ hf; omega
  | succ fuel ih =>
    intro order queue ind hinv hf
    cases queue with
    | nil =>
      have hko : kahnLoop g (fuel + 1) [] order ind = order := rfl
      rw [hko]
      have hnd : order.Nodup := by
        have := hinv.nodup
        rw [List.append_nil] at this
        exact this
      have hsubo : ∀ x ∈ order, x ∈ keys steps := by
        intro x hx
        exact hinv.subk x (by rw [List.append_nil]; exact hx)
      have hksub : ∀ x ∈ keys steps, x ∈ order := by
        by_contra hmiss
        push_neg at hmiss
        obtain ⟨x, hxk, hxo⟩ := hmiss
        have hne : (keys steps).filter (fun k => !(decide (k ∈ order))) ≠ [] := by
          intro hemp
          have : x ∈ (keys steps).filter (fun k => !(decide (k ∈ order))) :=
            List.mem_filter.mpr ⟨hxk, by simp [hxo]⟩
          rw [hemp] at this
          simp at this
        obtain ⟨m, hmR, hmd⟩ := exists_source hac _ hne
        have hmf := List.mem_filter.mp hmR
        have hmk : m ∈ keys steps := hmf.1
        have hmo : m ∉ order := by simpa using hmf.2
        have hdeps : ∀ d ∈ depsOf steps m, d ∈ order := by
          intro d hd
          have hdk2 : d ∈ keys steps := hdk m hmk d hd
          by_contra hdo
          exact hmd d hd (List.mem_filter.mpr ⟨hdk2, by simp [hdo]⟩)
        have hfz : ((depsOf steps m).filter (fun d => !(decide (d ∈ order)))).length = 0 := by
          have : (depsOf steps m).filter (fun d => !(decide (d ∈ order))) = [] := by
            rw [List.filter_eq_nil]
            intro d hd
            simp [hdeps d hd]
          rw [this]
          rfl
        have hz : ind m = 0 := by
          rw [hinv.indeg m, hfz]
          rfl
        have := (hinv.ready m).mpr ⟨hmk, hmo, hz⟩
        simp at this
      constructor
      · have h1 := hnd.subperm hsubo
        have h2 := hk.subperm hksub
        exact h1.antisymm h2
      · exact hinv.topo
    | cons q qs =>
      rcases hpn : processNeighbors (g q) qs ind with ⟨qs1, ind1⟩
      have hko : kahnLoop g (fuel + 1) (q :: qs) order ind =
          kahnLoop g fuel qs1 (order ++ [q]) ind1 := by
        simp only [kahnLoop]
        rw [hpn]
      rw [hko]
      have hstep := kahn_step hg hinv
      rw [hpn] at hstep
      have hlen : (order ++ [q]).length ≤ (keys steps).length := by
        have hnd1 : (order ++ [q]).Nodup := by
          have := hstep.nodup
          rw [List.nodup_append] at this
          exact this.1
        refine nodup_subset_length hnd1 ?_
        intro x hx
        exact hstep.subk x (List.mem_append_left _ hx)
      have hf1 : (keys steps).length - (order ++ [q]).length < fuel := by
        rw [List.length_append, List.length_singleton]
        rw [List.length_append, List.length_singleton] at hlen
        omega
      exact ih (order ++ [q]) qs1 ind1 hstep hf1

/-- On a well-formed acyclic step mapping, `_get_execution_order` returns a
topologically sorted permutation of the step names. -/
theorem getExecutionOrder_ok {steps : Steps} (hk : (keys steps).Nodup)
    (hdk : DepsKnown steps) (hac : Acyclic steps) :
    ∃ order, getExecutionOrder steps = .ok order ∧ order.Perm (keys steps) ∧
      Topo steps order := by
  have hall : ∀ p ∈ steps, ∀ d ∈ p.2.depends_on, d ∈ keys steps := by
    intro p hp d hd
    have hl := lookup_eq_some_of_mem hk hp
    have hdm : d ∈ depsOf steps p.1 := by
      unfold depsOf
      rw [hl]
      exact hd
    exact hdk p.1 (List.mem_map_of_mem Prod.fst hp) d hdm
  obtain ⟨g, ind, hbuild, hgc, hindc⟩ := buildLoop_ok steps (fun _ => []) (fun _ => 0) hall
  have hg : ∀ x m, (g x).count m = (depsOf steps m).count x := by
    intro x m
    rw [hgc x m, countDeps_eq hk]
    simp
  have hind : ∀ x, ind x = ((depsOf steps x).length : Int) := by
    intro x
    rw [hindc x, sumDeps_eq hk]
    simp
  have hinv0 : KInv steps ind [] ((keys steps).filter (fun k => ind k == 0)) := by
    refine ⟨?_, ?_, ?_, ?_, ?_⟩
    · rw [List.nil_append]
      exact hk.filter _
    · intro x hx
      rw [List.nil_append] at hx
      exact (List.mem_filter.mp hx).1
    · intro m
      have hfid : (depsOf steps m).filter (fun d => !(decide (d ∈ ([] : List String)))) =
          depsOf steps m := by
        simp
      rw [hfid]
      exact hind m
    · intro m
      rw [List.mem_filter]
      constructor
      · rintro ⟨h1, h2⟩
        refine ⟨h1, by simp, ?_⟩
        simpa using h2
      · rintro ⟨h1, _, h3⟩
        exact ⟨h1, by simpa using h3⟩
    · intro pre m post h
      exact absurd h.symm (List.append_ne_nil_of_right_ne_nil pre (List.cons_ne_nil m post))
  have hklen : (keys steps).length = steps.length := by
    simp [keys]
  have hmain := kahnLoop_spec hk hdk hac hg (steps.length + 1) []
    ((keys steps).filter (fun k => ind k == 0)) ind hinv0 (by simp; omega)
  refine ⟨kahnLoop g (steps.length + 1) ((keys steps).filter (fun k => ind k == 0)) [] ind,
    ?_, hmain.1, hmain.2⟩
  unfold getExecutionOrder
  rw [hbuild]
  have hleneq : (kahnLoop g (steps.length + 1)
      ((keys steps).filter (fun k => ind k == 0)) [] ind).length = steps.length := by
    rw [hmain.1.length_eq, hklen]
  simp only [hleneq]
  simp

/-! ### Properties of `Workflow.run` -/

/-- The invocation trace carried by a loop outcome. -/
def LoopOut.callsOf : LoopOut → List CallRec
  | .completed _ calls => calls
  | .failedRes _ _ calls => calls
  | .raised _ calls => calls

theorem callsOf_consCall (cr : CallRec) (o : LoopOut) :
    (consCall cr o).callsOf = cr :: o.callsOf := by
  cases o <;> rfl

theorem length_pos_append_left {a b : String} (h : 0 < a.length) : 0 < (a ++ b).length := by
  rw [String.length_append]
  omega

theorem errExec_len (name msg : String) : 0 < (errExec name msg).length := by
  unfold errExec
  have h : 0 < ("Error executing step ").length := by decide
  repeat rw [String.length_append]
  omega

theorem errStepFailed_len (name : String) (ev : Val) : 0 < (errStepFailed name ev).length := by
  unfold errStepFailed
  have h : 0 < ("Step ").length := by decide
  repeat rw [String.length_append]
  omega

theorem errUnmet_len (name : String) (missing : List String) :
    0 < (errUnmet name missing).length := by
  unfold errUnmet
  have h : 0 < ("Dependencies not satisfied for step ").length := by decide
  repeat rw [String.length_append]
  omega

theorem keyErr_len (name : String) : 0 < (sq ++ name ++ sq).length := by
  have h : 0 < sq.length := by decide
  repeat rw [String.length_append]
  omega

theorem wfFailed_len (msg : String) : 0 < ("Workflow failed: " ++ msg).length := by
  have h : 0 < ("Workflow failed: ").length := by decide
  rw [String.length_append]
  omega

/-- Case analysis of the execution loop: it completes with the replay of the
recorded results, or returns a failed result with a non-empty message, or
raises (to the outer handler) with a non-empty message. -/
theorem runSteps_cases (action : WorkflowStep → Ctx → ActionResult) (steps : Steps)
    (context : Ctx) :
    ∀ order i results,
      (∃ rs calls, runSteps action steps context order i results = .completed rs calls ∧
        rs = calls.foldl applyOutcome results) ∨
      (∃ msg sc calls, runSteps action steps context order i results = .failedRes msg sc calls ∧
        0 < msg.length) ∨
      (∃ msg calls, runSteps action steps context order i results = .raised msg calls ∧
        0 < msg.length) := by
  intro order
  induction order with
  | nil =>
    intro i results
    exact Or.inl ⟨results, [], rfl, rfl⟩
  | cons name rest ih =>
    intro i results
    simp only [runSteps]
    cases hl : steps.lookup name with
    | none => exact Or.inr (Or.inr ⟨_, _, rfl, keyErr_len name⟩)
    | some step =>
      simp only []
      by_cases hdeps : step.depends_on.all (fun d => (results.lookup d).isSome)
      · rw [if_pos hdeps]
        cases ha : action step (step.depends_on.foldl
            (fun c d => dictSet c d ((results.lookup d).getD .vnone)) context) with
        | raises msg =>
          exact Or.inr (Or.inl ⟨_, _, _, rfl, errExec_len name msg⟩)
        | returns v =>
          cases v with
          | vdict es =>
            simp only []
            by_cases hs : isSuccessVal (es.lookup "status") = true
            · rw [if_pos hs]
              rcases ih (i + 1) (dictSet results name (.vdict es)) with
                ⟨rs, calls, hrec, hfold⟩ | ⟨msg, sc, calls, hrec, hlen⟩ |
                  ⟨msg, calls, hrec, hlen⟩
              · rw [hrec]
                exact Or.inl ⟨rs, _, rfl, by rw [hfold]; rfl⟩
              · rw [hrec]
                exact Or.inr (Or.inl ⟨msg, sc, _, rfl, hlen⟩)
              · rw [hrec]
                exact Or.inr (Or.inr ⟨msg, _, rfl, hlen⟩)
            · rw [if_neg hs]
              exact Or.inr (Or.inl ⟨_, _, _, rfl, errStepFailed_len name _⟩)
          | vnone => exact Or.inr (Or.inl ⟨_, _, _, rfl, errExec_len name _⟩)
          | vstr s => exact Or.inr (Or.inl ⟨_, _, _, rfl, errExec_len name _⟩)
          | vnat n => exact Or.inr (Or.inl ⟨_, _, _, rfl, errExec_len name _⟩)
          | vlist es => exact Or.inr (Or.inl ⟨_, _, _, rfl, errExec_len name _⟩)
      · rw [if_neg hdeps]
        exact Or.inr (Or.inr ⟨_, _, rfl, errUnmet_len name _⟩)

/-- Global shape of a run: either everything completed (the output is the
replay of the recorded calls, no error) or the run failed (no output, a
non-empty error); the final workflow status and the status assignment history
agree with the result status in both cases. -/
theorem run_shape (action : WorkflowStep → Ctx → ActionResult) (w : Workflow)
    (ctx0 : Option Ctx) :
    ((Workflow.run action w ctx0).result.status = .completed ∧
      (Workflow.run action w ctx0).result.error = none ∧
      (Workflow.run action w ctx0).result.output =
        some ((Workflow.run action w ctx0).calls.foldl applyOutcome []) ∧
      (Workflow.run action w ctx0).wf.status = .completed ∧
      (Workflow.run action w ctx0).statusHist = [.running, .completed]) ∨
    ((Workflow.run action w ctx0).result.status = .failed ∧
      (Workflow.run action w ctx0).result.output = none ∧
      (∃ m, (Workflow.run action w ctx0).result.error = some m ∧ 0 < m.length) ∧
      (Workflow.run action w ctx0).wf.status = .failed ∧
      (Workflow.run action w ctx0).statusHist = [.running, .failed]) := by
  simp only [Workflow.run]
  cases hv : validate w.steps with
  | error e =>
    exact Or.inr ⟨rfl, rfl, ⟨_, rfl, wfFailed_len _⟩, rfl, rfl⟩
  | ok b =>
    simp only []
    cases ho : getExecutionOrder w.steps with
    | error e =>
      exact Or.inr ⟨rfl, rfl, ⟨_, rfl, wfFailed_len _⟩, rfl, rfl⟩
    | ok order =>
      simp only []
      rcases runSteps_cases action w.steps (ctx0.getD []) order 1 [] with
        ⟨rs, calls, hrec, hfold⟩ | ⟨msg, sc, calls, hrec, hlen⟩ | ⟨msg, calls, hrec, hlen⟩
      · rw [hrec]
        exact Or.inl ⟨rfl, rfl, by rw [hfold], rfl, rfl⟩
      · rw [hrec]
        exact Or.inr ⟨rfl, rfl, ⟨msg, rfl, hlen⟩, rfl, rfl⟩
      · rw [hrec]
        exact Or.inr ⟨rfl, rfl, ⟨_, rfl, wfFailed_len msg⟩, rfl, rfl⟩

/-- Correctness of the per-step contexts along an invocation trace: each
invocation received the (initial) context overlaid with one entry per declared
dependency of its step, mapping the dependency to its recorded result at that
point of the run. -/
def CtxOK (steps : Steps) (context : Ctx) : List (String × Val) → List CallRec → Prop
  | _, [] => True
  | results, cr :: rest =>
    (∃ step, steps.lookup cr.name = some step ∧
      cr.ctx = step.depends_on.foldl
        (fun c d => dictSet c d ((results.lookup d).getD .vnone)) context) ∧
    CtxOK steps context (applyOutcome results cr) rest

/-- Every context passed to an action by the execution loop is the shallow copy
of the incoming context overlaid with the recorded dependency results. -/
theorem runSteps_ctxOK (action : WorkflowStep → Ctx → ActionResult) (steps : Steps)
    (context : Ctx) :
    ∀ order i results,
      CtxOK steps context results (runSteps action steps context order i results).callsOf := by
  intro order
  induction order with
  | nil => intro i results; exact trivial
  | cons name rest ih =>
    intro i results
    simp only [runSteps]
    cases hl : steps.lookup name with
    | none => exact trivial
    | some step =>
      simp only []
      by_cases hdeps : step.depends_on.all (fun d => (results.lookup d).isSome)
      · rw [if_pos hdeps]
        cases ha : action step (step.depends_on.foldl
            (fun c d => dictSet c d ((results.lookup d).getD .vnone)) context) with
        | raises msg => exact ⟨⟨step, hl, rfl⟩, trivial⟩
        | returns v =>
          cases v with
          | vdict es =>
            simp only []
            by_cases hs : isSuccessVal (es.lookup "status") = true
            · rw [if_pos hs, callsOf_consCall]
              exact ⟨⟨step, hl, rfl⟩, ih (i + 1) (dictSet results name (.vdict es))⟩
            · rw [if_neg hs]
              exact ⟨⟨step, hl, rfl⟩, trivial⟩
          | vnone => exact ⟨⟨step, hl, rfl⟩, trivial⟩
          | vstr s => exact ⟨⟨step, hl, rfl⟩, trivial⟩
          | vnat n => exact ⟨⟨step, hl, rfl⟩, trivial⟩
          | vlist es => exact ⟨⟨step, hl, rfl⟩, trivial⟩
      · rw [if_neg hdeps]
        exact trivial

/-- The action invocation succeeded: it returned (rather than raised) a
dictionary whose `status` entry equals the string `success` (run line 148). -/
def IsSuccessOutcome : ActionResult → Prop
  | .raises _ => False
  | .returns (.vdict es) => isSuccessVal (es.lookup "status") = true
  | .returns _ => False

theorem isSuccess_elim {o : ActionResult} (h : IsSuccessOutcome o) :
    ∃ es, o = .returns (.vdict es) ∧ isSuccessVal (es.lookup "status") = true := by
  cases o with
  | raises m => exact (h : False).elim
  | returns v =>
    cases v with
    | vdict es => exact ⟨es, rfl, h⟩
    | vnone => exact (h : False).elim
    | vstr s => exact (h : False).elim
    | vnat n => exact (h : False).elim
    | vlist l => exact (h : False).elim

/-- Unfolding of one loop iteration whose action invocation succeeds. -/
theorem runSteps_cons_success {action : WorkflowStep → Ctx → ActionResult} {steps : Steps}
    {context : Ctx} {name : String} {step : WorkflowStep} (rest : List String) (i : Nat)
    (results : List (String × Val)) {es : List (String × Val)}
    (hl : steps.lookup name = some step)
    (hdeps : step.depends_on.all (fun d => (results.lookup d).isSome) = true)
    (ha : action step (step.depends_on.foldl
      (fun c d => dictSet c d ((results.lookup d).getD .vnone)) context) =
      .returns (.vdict es))
    (hs : isSuccessVal (es.lookup "status") = true) :
    runSteps action steps context (name :: rest) i results =
      consCall ⟨name, step.depends_on.foldl
          (fun c d => dictSet c d ((results.lookup d).getD .vnone)) context,
          .returns (.vdict es)⟩
        (runSteps action steps context rest (i + 1) (dictSet results name (.vdict es))) := by
  simp only [runSteps, hl]
  rw [if_pos hdeps, ha]
  simp only []
  rw [if_pos hs]

/-- Unfolding of one loop iteration whose action invocation fails (raises or
returns a non-success outcome): the loop returns a failed result counting only
the previously completed steps, and no further step runs. -/
theorem runSteps_cons_fail {action : WorkflowStep → Ctx → ActionResult} {steps : Steps}
    {context : Ctx} {name : String} {step : WorkflowStep} (rest : List String) (i : Nat)
    (results : List (String × Val))
    (hl : steps.lookup name = some step)
    (hdeps : step.depends_on.all (fun d => (results.lookup d).isSome) = true)
    (hfail : ¬ IsSuccessOutcome (action step (step.depends_on.foldl
      (fun c d => dictSet c d ((results.lookup d).getD .vnone)) context))) :
    ∃ msg, 0 < msg.length ∧ runSteps action steps context (name :: rest) i results =
      .failedRes msg (i - 1) [⟨name, step.depends_on.foldl
        (fun c d => dictSet c d ((results.lookup d).getD .vnone)) context,
        action step (step.depends_on.foldl
          (fun c d => dictSet c d ((results.lookup d).getD .vnone)) context)⟩] := by
  cases ha : action step (step.depends_on.foldl
      (fun c d => dictSet c d ((results.lookup d).getD .vnone)) context) with
  | raises msg =>
    refine ⟨errExec name msg, errExec_len name msg, ?_⟩
    simp only [runSteps, hl]
    rw [if_pos hdeps, ha]
  | returns v =>
    cases v with
    | vdict es =>
      by_cases hs : isSuccessVal (es.lookup "status") = true
      · exfalso
        apply hfail
        rw [ha]
        exact hs
      · refine ⟨errStepFailed name ((es.lookup "error").getD (.vstr "Unknown error")),
          errStepFailed_len name _, ?_⟩
        simp only [runSteps, hl]
        rw [if_pos hdeps, ha]
        simp only []
        rw [if_neg hs]
    | vnone =>
      refine ⟨errExec name (attrErr .vnone), errExec_len name _, ?_⟩
      simp only [runSteps, hl]
      rw [if_pos hdeps, ha]
    | vstr s =>
      refine ⟨errExec name (attrErr (.vstr s)), errExec_len name _, ?_⟩
      simp only [runSteps, hl]
      rw [if_pos hdeps, ha]
    | vnat n =>
      refine ⟨errExec name (attrErr (.vnat n)), errExec_len name _, ?_⟩
      simp only [runSteps, hl]
      rw [if_pos hdeps, ha]
    | vlist l =>
      refine ⟨errExec name (attrErr (.vlist l)), errExec_len name _, ?_⟩
      simp only [runSteps, hl]
      rw [if_pos hdeps, ha]

/-! ### Concrete workflows used in the scenario claims and witnesses -/

def cStepA : WorkflowStep := { name := "A", description := "first step", action := "a" }

def cStepB : WorkflowStep :=
  { name := "B", description := "second step", action := "b", depends_on := ["A"] }

def cStepC : WorkflowStep :=
  { name := "C", description := "third step", action := "c", depends_on := ["B"] }

/-- The three-step chain A → B → C of property P5. -/
def chainWorkflow : Workflow := Workflow.make "chain" [cStepA, cStepB, cStepC]

def ghostStep : WorkflowStep :=
  { name := "G", description := "orphan", action := "g", depends_on := ["ghost"] }

/-- A workflow whose single step names an unknown dependency. -/
def ghostWorkflow : Workflow := Workflow.make "ghosted" [ghostStep]

def cycStepX : WorkflowStep :=
  { name := "X", description := "entry", action := "x", depends_on := ["A"] }

def cycStepA : WorkflowStep :=
  { name := "A", description := "left", action := "a", depends_on := ["B"] }

def cycStepB : WorkflowStep :=
  { name := "B", description := "right", action := "b", depends_on := ["A"] }

/-- A workflow in which A and B form a cycle and X merely depends on A. -/
def cycWorkflow : Workflow := Workflow.make "cyclic" [cycStepX, cycStepA, cycStepB]

/-- An action that always reports success. -/
def succAction : WorkflowStep → Ctx → ActionResult := fun s _ =>
  .returns (.vdict [("status", .vstr "success"), ("output", .vstr ("Completed " ++ s.name))])

/-- An action that succeeds everywhere except on step B, where it raises. -/
def failBAction : WorkflowStep → Ctx → ActionResult := fun s c =>
  if s.name = "B" then .raises "boom" else succAction s c

/-! ### The claims -/

/-- C1: for every step mapping with no cycles and no unknown dependency
references, `Workflow.validate` returns true, and `Workflow._get_execution_order`
returns a permutation of all step names in which, for every step, each name in
that step's `depends_on` appears strictly before the step itself. -/
theorem claim_C1 (steps : Steps) (hk : (keys steps).Nodup) (hdk : DepsKnown steps)
    (hac : Acyclic steps) :
    validate steps = .ok true ∧
    ∃ order, getExecutionOrder steps = .ok order ∧ order.Perm (keys steps) ∧
      Topo steps order :=
  ⟨validate_ok_of_acyclic hk hdk hac, getExecutionOrder_ok hk hdk hac⟩

/-- Witness for C1 at the concrete chain A → B → C. -/
theorem claim_C1_witness :
    validate chainWorkflow.steps = .ok true ∧
    ∃ order, getExecutionOrder chainWorkflow.steps = .ok order ∧
      order.Perm (keys chainWorkflow.steps) ∧ Topo chainWorkflow.steps order :=
  claim_C1 chainWorkflow.steps (by decide) (by unfold DepsKnown; decide)
    ((validate_ok_iff_acyclic (by decide) (by unfold DepsKnown; decide)).mp rfl)

/-- C2: `Workflow.run` never propagates an exception: it always returns a
`WorkflowResult`, and every error condition is converted into a result with
`status = failed` and a non-empty error message. -/
theorem claim_C2 (action : WorkflowStep → Ctx → ActionResult) (w : Workflow)
    (ctx0 : Option Ctx) :
    (Workflow.run action w ctx0).result.status = .completed ∨
    ((Workflow.run action w ctx0).result.status = .failed ∧
      ∃ m, (Workflow.run action w ctx0).result.error = some m ∧ 0 < m.length) := by
  rcases run_shape action w ctx0 with ⟨h1, _, _, _, _⟩ | ⟨h1, _, h3, _, _⟩
  · exact Or.inl h1
  · exact Or.inr ⟨h1, h3⟩

/-- C3: in the chain A → B → C, if A's action succeeds and B's action
invocation fails (raises or reports a non-success outcome), `run` returns a
failed result with `steps_completed = 1`, and exactly A and B (never C) were
invoked. -/
theorem claim_C3 (action : WorkflowStep → Ctx → ActionResult) (ctx0 : Option Ctx)
    (hA : ∀ c, IsSuccessOutcome (action cStepA c))
    (hB : ∀ c, ¬ IsSuccessOutcome (action cStepB c)) :
    (Workflow.run action chainWorkflow ctx0).result.status = .failed ∧
    (Workflow.run action chainWorkflow ctx0).result.steps_completed = 1 ∧
    (Workflow.run action chainWorkflow ctx0).calls.map CallRec.name = ["A", "B"] := by
  have hval : validate chainWorkflow.steps = .ok true := rfl
  have hord : getExecutionOrder chainWorkflow.steps = .ok ["A", "B", "C"] := rfl
  have hlA : chainWorkflow.steps.lookup "A" = some cStepA := rfl
  have hlB : chainWorkflow.steps.lookup "B" = some cStepB := rfl
  obtain ⟨esA, hoA, hsA⟩ := isSuccess_elim (hA (cStepA.depends_on.foldl
    (fun c d => dictSet c d ((([] : List (String × Val)).lookup d).getD .vnone))
    (ctx0.getD [])))
  have hstepA := runSteps_cons_success ["B", "C"] 1 [] hlA rfl hoA hsA
  obtain ⟨msgB, hlenB, hstepB⟩ := runSteps_cons_fail ["C"] 2
    (dictSet [] "A" (.vdict esA)) hlB rfl (hB _)
  simp only [Workflow.run, hval, hord]
  rw [hstepA, hstepB]
  exact ⟨rfl, rfl, rfl⟩

/-- Witness for C3: the concrete action that succeeds on A and raises on B. -/
theorem claim_C3_witness :
    (Workflow.run failBAction chainWorkflow none).result.status = .failed ∧
    (Workflow.run failBAction chainWorkflow none).result.steps_completed = 1 ∧
    (Workflow.run failBAction chainWorkflow none).calls.map CallRec.name = ["A", "B"] :=
  claim_C3 failBAction none (fun _ => rfl) (fun _ h => h)

/-- C4: every context passed to a step's action invocation by `run` equals a
shallow copy of the initial context overlaid with one entry per name in the
step's `depends_on`, mapping that dependency to its recorded result. -/
theorem claim_C4 (action : WorkflowStep → Ctx → ActionResult) (w : Workflow)
    (ctx0 : Option Ctx) :
    CtxOK w.steps (ctx0.getD []) [] (Workflow.run action w ctx0).calls := by
  simp only [Workflow.run]
  cases hv : validate w.steps with
  | error e => exact trivial
  | ok b =>
    simp only []
    cases ho : getExecutionOrder w.steps with
    | error e => exact trivial
    | ok order =>
      simp only []
      have h := runSteps_ctxOK action w.steps (ctx0.getD []) order 1 []
      cases hr : runSteps action w.steps (ctx0.getD []) order 1 [] with
      | completed rs calls => rw [hr] at h; exact h
      | failedRes msg sc calls => rw [hr] at h; exact h
      | raised msg calls => rw [hr] at h; exact h

/-- C5 (amended): for every step mapping with no unknown dependency references
whose dependency graph contains a cycle, `Workflow.validate` fails with a
circular-dependency error whose identified step name is a node from which a
cycle is reachable along `depends_on` edges (the node need not itself lie on
the cycle). -/
theorem claim_C5 (steps : Steps) (hk : (keys steps).Nodup) (hdk : DepsKnown steps)
    (hcyc : ∃ c, Reaches steps c c) :
    ∃ s, validate steps = .error (.circular s) ∧ CycleFrom steps s :=
  validate_circular_of_cycle hk hdk hcyc

/-- Witness for C5 at the concrete workflow X → A ⇄ B. -/
theorem claim_C5_witness :
    ∃ s, validate cycWorkflow.steps = .error (.circular s) ∧
      CycleFrom cycWorkflow.steps s :=
  claim_C5 cycWorkflow.steps (by decide) (by unfold DepsKnown; decide)
    ⟨"A", Reaches.tail
      (Reaches.single (show ("B" : String) ∈ depsOf cycWorkflow.steps "A" by decide))
      (show ("A" : String) ∈ depsOf cycWorkflow.steps "B" by decide)⟩

/-- Counterexample to C5 as stated: in the workflow X → A ⇄ B the dependency
graph has a cycle, `validate` raises the circular-dependency error naming X,
and X does not lie on any cycle. -/
theorem claim_C5_counterexample :
    (∃ c, Reaches cycWorkflow.steps c c) ∧
    validate cycWorkflow.steps = .error (.circular "X") ∧
    ¬ Reaches cycWorkflow.steps "X" "X" := by
  have hAB : ("B" : String) ∈ depsOf cycWorkflow.steps "A" := by decide
  have hBA : ("A" : String) ∈ depsOf cycWorkflow.steps "B" := by decide
  refine ⟨⟨"A", (Reaches.single hAB).tail hBA⟩, rfl, ?_⟩
  · have hnd : ∀ b, "X" ∉ depsOf cycWorkflow.steps b := by
      intro b
      by_cases h1 : b = "X"
      · subst h1; decide
      by_cases h2 : b = "A"
      · subst h2; decide
      by_cases h3 : b = "B"
      · subst h3; decide
      have hsteps : cycWorkflow.steps =
          [("X", cycStepX), ("A", cycStepA), ("B", cycStepB)] := rfl
      unfold depsOf
      rw [hsteps]
      have e1 : (b == "X") = false := beq_eq_false_iff_ne.mpr h1
      have e2 : (b == "A") = false := beq_eq_false_iff_ne.mpr h2
      have e3 : (b == "B") = false := beq_eq_false_iff_ne.mpr h3
      simp [List.lookup, e1, e2, e3]
    intro hre
    cases hre with
    | single h => exact hnd "X" h
    | tail hr h => exact hnd _ h

/-- C6: when validation fails, `run` returns a failed result carrying the
validation failure message, `steps_completed = 0` and `total_steps` equal to
the number of steps; no action is invoked and the workflow status is failed. -/
theorem claim_C6 (action : WorkflowStep → Ctx → ActionResult) (w : Workflow)
    (ctx0 : Option Ctx) (e : ValidationError) (hv : validate w.steps = .error e) :
    Workflow.run action w ctx0 = ⟨⟨.failed, none,
      some ("Workflow failed: " ++ valErrStr e), 0, 0, w.steps.length⟩,
      { w with status := .failed }, [], [.running, .failed]⟩ := by
  simp only [Workflow.run, hv]

/-- Witness for C6 at the workflow whose step depends on the unknown name
`ghost`. -/
theorem claim_C6_witness :
    Workflow.run succAction ghostWorkflow none = ⟨⟨.failed, none,
      some ("Workflow failed: " ++ valErrStr (.depNotFound "ghost")), 0, 0, 1⟩,
      { ghostWorkflow with status := .failed }, [], [.running, .failed]⟩ :=
  claim_C6 succAction ghostWorkflow none (.depNotFound "ghost") rfl

/-- C7: every result of `run` has `output` present exactly on success (the
mapping of every executed step to its recorded result) and `error` present
exactly on failure (a non-empty message). -/
theorem claim_C7 (action : WorkflowStep → Ctx → ActionResult) (w : Workflow)
    (ctx0 : Option Ctx) :
    ((Workflow.run action w ctx0).result.status = .completed ∧
      (Workflow.run action w ctx0).result.error = none ∧
      (Workflow.run action w ctx0).result.output =
        some ((Workflow.run action w ctx0).calls.foldl applyOutcome [])) ∨
    ((Workflow.run action w ctx0).result.status = .failed ∧
      (Workflow.run action w ctx0).result.output = none ∧
      ∃ m, (Workflow.run action w ctx0).result.error = some m ∧ 0 < m.length) := by
  rcases run_shape action w ctx0 with ⟨h1, h2, h3, _, _⟩ | ⟨h1, h2, h3, _, _⟩
  · exact Or.inl ⟨h1, h2, h3⟩
  · exact Or.inr ⟨h1, h2, h3⟩

/-- C8: `Workflow._get_execution_order` does not mutate the step mapping: with
mutation modelled by state threading, the workflow state after the call equals
the state before it, step attributes included, whatever the call returns. -/
theorem claim_C8 (w : Workflow) :
    (Workflow.getExecutionOrderM w).2 = w ∧
    (Workflow.getExecutionOrderM w).2.steps = w.steps ∧
    (Workflow.getExecutionOrderM w).1 = getExecutionOrder w.steps :=
  ⟨rfl, rfl, rfl⟩

/-- C9: `run` first sets `status` to running, and on return the workflow
status is completed exactly when the result is completed and failed exactly
when it is failed; no other status is ever produced. -/
theorem claim_C9 (action : WorkflowStep → Ctx → ActionResult) (w : Workflow)
    (ctx0 : Option Ctx) :
    (Workflow.run action w ctx0).statusHist =
      [.running, (Workflow.run action w ctx0).wf.status] ∧
    (((Workflow.run action w ctx0).result.status = .completed ∧
        (Workflow.run action w ctx0).wf.status = .completed) ∨
      ((Workflow.run action w ctx0).result.status = .failed ∧
        (Workflow.run action w ctx0).wf.status = .failed)) := by
  rcases run_shape action w ctx0 with ⟨h1, _, _, h4, h5⟩ | ⟨h1, _, _, h4, h5⟩
  · exact ⟨by rw [h5, h4], Or.inl ⟨h1, h4⟩⟩
  · exact ⟨by rw [h5, h4], Or.inr ⟨h1, h4⟩⟩

/-- C10: `run` neither reads nor writes the workflow's own `results`
attribute: the result and invocation trace are unchanged by any prior value of
`results`, and the attribute is exactly preserved by the call. -/
theorem claim_C10 (action : WorkflowStep → Ctx → ActionResult) (w : Workflow)
    (ctx0 : Option Ctx) (r : List (String × Val)) :
    (Workflow.run action { w with results := r } ctx0).result =
      (Workflow.run action w ctx0).result ∧
    (Workflow.run action { w with results := r } ctx0).calls =
      (Workflow.run action w ctx0).calls ∧
    (Workflow.run action { w with results := r } ctx0).wf.results = r ∧
    (Workflow.run action w ctx0).wf.results = w.results := by
  obtain ⟨nm, st, stat, res⟩ := w
  simp only [Workflow.run]
  cases hv : validate st with
  | error e => exact ⟨rfl, rfl, rfl, rfl⟩
  | ok b =>
    simp only []
    cases ho : getExecutionOrder st with
    | error e => exact ⟨rfl, rfl, rfl, rfl⟩
    | ok order =>
      simp only []
      cases runSteps action st (ctx0.getD []) order 1 [] <;> exact ⟨rfl, rfl, rfl, rfl⟩

end AgentE
